import Mathlib

/-!
# Verification of the `ccepy` elliptic-curve cryptography library

This file gives a shallow embedding, in Lean 4, of the algorithms of the
`ccepy` Python library (modular integers, polynomials over prime fields,
elliptic-curve point groups, and the ECDH / ECDSA protocols), together with
proofs of the behavioural properties claimed in its specification.

Conventions of the embedding:
* Python `int` values are modelled by `ℤ` (or by `ℕ` where the source only
  ever holds non-negative values); Python `divmod` on non-negative operands
  agrees with `Nat` division and remainder.
* `EnteroModuloP` values (canonical representatives modulo a prime `p`) are
  modelled by `ZMod p`.
* A raised Python exception is modelled by `Option`/`none` in the embedded
  function's result.
* Elliptic-curve points are modelled by `Option (F × F)`, with `none` playing
  the role of the point at infinity (absent coordinates in the source).
-/

namespace Ccepy

/-! ## `aritmetica_elemental.alg_euclides`

The extended Euclidean algorithm for integers.  The source is an iterative
two-vector update:

```
if b > a:
    y, x, d = alg_euclides(b, a)
else:
    if b == 0:
        d, x, y = a, 1, 0
    else:
        x2, x1, y2, y1 = 1, 0, 0, 1
        while b > 0:
            q, r = divmod(a, b)
            x, y = x2 - q * x1, y2 - q * y1
            a, b = b, r
            x2, x1, y2, y1 = x1, x, y1, y
        d, x, y = a, x2, y2
return x, y, d
```

The loop variables `a`, `b` stay non-negative throughout (the loop runs while
`b > 0` and replaces them by `b` and `a mod b`), so they are modelled by `ℕ`;
the Bézout accumulators are modelled by `ℤ`.
-/

/-- The `while b > 0` loop of `alg_euclides`.  State: `(a, b, x2, x1, y2, y1)`;
on exit the source sets `d, x, y = a, x2, y2` and returns `(x, y, d)`. -/
def bucleEuclides (a b : ℕ) (x2 x1 y2 y1 : ℤ) : ℤ × ℤ × ℕ :=
  if h : b = 0 then (x2, y2, a)
  else
    bucleEuclides b (a % b) x1 (x2 - (a / b : ℕ) * x1) y1 (y2 - (a / b : ℕ) * y1)
termination_by b
decreasing_by exact Nat.mod_lt _ (Nat.pos_of_ne_zero h)

/-- The `else` branch of `alg_euclides` (no swap of the arguments). -/
def cuerpoEuclides (a b : ℕ) : ℤ × ℤ × ℕ :=
  if b = 0 then (1, 0, a) else bucleEuclides a b 1 0 0 1

/-- `alg_euclides(a, b)`: returns `(x, y, d)` with `a*x + b*y = d`.  When
`b > a` the source recurses once with the arguments swapped and swaps the two
cofactors of the result; the recursive call then takes the `else` branch, so it
is exactly `cuerpoEuclides b a`. -/
def alg_euclides (a b : ℕ) : ℤ × ℤ × ℕ :=
  if b > a then
    let r := cuerpoEuclides b a
    (r.2.1, r.1, r.2.2)
  else cuerpoEuclides a b

/-- Reference recursion computing the same Bézout triple as the two-vector
loop (used only in proofs). -/
def euclidesRec (a b : ℕ) : ℤ × ℤ × ℕ :=
  if h : b = 0 then (1, 0, a)
  else
    let r := euclidesRec b (a % b)
    (r.2.1, r.1 - (a / b : ℕ) * r.2.1, r.2.2)
termination_by b
decreasing_by exact Nat.mod_lt _ (Nat.pos_of_ne_zero h)

theorem bucleEuclides_eq_euclidesRec (a b : ℕ) (x2 x1 y2 y1 : ℤ) :
    bucleEuclides a b x2 x1 y2 y1 =
      ((euclidesRec a b).1 * x2 + (euclidesRec a b).2.1 * x1,
       (euclidesRec a b).1 * y2 + (euclidesRec a b).2.1 * y1,
       (euclidesRec a b).2.2) := by
  induction a, b using euclidesRec.induct generalizing x2 x1 y2 y1 with
  | case1 a =>
    rw [bucleEuclides, euclidesRec]
    simp
  | case2 a b h ih =>
    rw [bucleEuclides, euclidesRec]
    simp only [h, dite_false]
    rw [ih]
    simp only [Prod.mk.injEq]
    exact ⟨by ring, by ring, trivial⟩

theorem cuerpoEuclides_eq_euclidesRec (a b : ℕ) :
    cuerpoEuclides a b = euclidesRec a b := by
  unfold cuerpoEuclides
  by_cases h : b = 0
  · subst h
    rw [euclidesRec]
    simp
  · rw [if_neg h, bucleEuclides_eq_euclidesRec]
    simp

/-- Bézout identity for the reference recursion. -/
theorem euclidesRec_bezout (a b : ℕ) :
    (euclidesRec a b).1 * a + (euclidesRec a b).2.1 * b =
      ((euclidesRec a b).2.2 : ℤ) := by
  induction a, b using euclidesRec.induct with
  | case1 a =>
    rw [euclidesRec]
    simp
  | case2 a b h ih =>
    rw [euclidesRec]
    simp only [h, dite_false]
    have hmod : ((a % b : ℕ) : ℤ) = (a : ℤ) - ((a / b : ℕ) : ℤ) * (b : ℤ) := by
      have h2 : ((a % b : ℕ) : ℤ) + (b : ℤ) * ((a / b : ℕ) : ℤ) = (a : ℤ) := by
        exact_mod_cast Nat.mod_add_div a b
      linarith
    rw [hmod] at ih
    linear_combination ih

/-- The third component of the reference recursion is the gcd. -/
theorem euclidesRec_gcd (a b : ℕ) : (euclidesRec a b).2.2 = Nat.gcd a b := by
  induction a, b using euclidesRec.induct with
  | case1 a =>
    rw [euclidesRec]
    simp
  | case2 a b h ih =>
    rw [euclidesRec]
    simp only [h, dite_false]
    rw [ih, Nat.gcd_comm b (a % b), ← Nat.gcd_rec, Nat.gcd_comm]

/-- Cofactor bounds for the reference recursion: if `0 < b ≤ a` and `b ∤ a`,
the Bézout cofactors `x`, `y` satisfy `2·d·|x| ≤ b` and `2·d·|y| ≤ a`. -/
theorem euclidesRec_cotas :
    ∀ b a : ℕ, 0 < b → b ≤ a → ¬ b ∣ a →
      2 * (euclidesRec a b).2.2 * (euclidesRec a b).1.natAbs ≤ b ∧
      2 * (euclidesRec a b).2.2 * (euclidesRec a b).2.1.natAbs ≤ a := by
  intro b
  induction b using Nat.strong_induction_on with
  | _ b ih =>
    intro a hb hba hdvd
    have hbne : b ≠ 0 := Nat.pos_iff_ne_zero.mp hb
    have hr : a % b ≠ 0 := fun h => hdvd (Nat.dvd_of_mod_eq_zero h)
    have hr0 : 0 < a % b := Nat.pos_of_ne_zero hr
    have hrb : a % b < b := Nat.mod_lt _ hb
    have hq : 1 ≤ a / b := (Nat.one_le_div_iff hb).mpr hba
    have hab : b * (a / b) + a % b = a := Nat.div_add_mod a b
    rw [euclidesRec]
    simp only [dif_neg hbne]
    by_cases hcaso : a % b ∣ b
    · -- the recursive call bottoms out: euclidesRec b (a % b) = (0, 1, a % b)
      have h1 : euclidesRec b (a % b) = (0, 1, a % b) := by
        rw [euclidesRec]
        simp only [dif_neg hr]
        rw [euclidesRec]
        simp [Nat.mod_eq_zero_of_dvd hcaso]
      rw [h1]
      simp only [Int.natAbs_one, zero_sub, Int.natAbs_neg, mul_one, Int.natAbs_ofNat]
      constructor
      · -- 2 * (a % b) ≤ b, since a % b properly divides b
        obtain ⟨k, hk⟩ := hcaso
        have hk2 : 2 ≤ k := by
          rcases Nat.lt_or_ge k 2 with hk' | hk'
          · interval_cases k <;> omega
          · exact hk'
        calc 2 * (a % b) = (a % b) * 2 := by ring
        _ ≤ (a % b) * k := Nat.mul_le_mul_left _ hk2
        _ = b := hk.symm
      · -- 2 * (a % b) * (a / b) ≤ a
        obtain ⟨k, hk⟩ := hcaso
        have hk2 : 2 ≤ k := by
          rcases Nat.lt_or_ge k 2 with hk' | hk'
          · interval_cases k <;> omega
          · exact hk'
        have h2rb : 2 * (a % b) ≤ b := by
          calc 2 * (a % b) = (a % b) * 2 := by ring
          _ ≤ (a % b) * k := Nat.mul_le_mul_left _ hk2
          _ = b := hk.symm
        calc 2 * (a % b) * (a / b) ≤ b * (a / b) := Nat.mul_le_mul_right _ h2rb
        _ ≤ a := by omega
    · -- inductive case: a % b does not divide b
      obtain ⟨hx, hy⟩ := ih (a % b) hrb b hr0 (Nat.le_of_lt hrb) hcaso
      refine ⟨hy, ?_⟩
      have htri : ((euclidesRec b (a % b)).1 -
          ((a / b : ℕ) : ℤ) * (euclidesRec b (a % b)).2.1).natAbs ≤
          (euclidesRec b (a % b)).1.natAbs + a / b * (euclidesRec b (a % b)).2.1.natAbs := by
        calc ((euclidesRec b (a % b)).1 -
            ((a / b : ℕ) : ℤ) * (euclidesRec b (a % b)).2.1).natAbs ≤
            (euclidesRec b (a % b)).1.natAbs +
              (((a / b : ℕ) : ℤ) * (euclidesRec b (a % b)).2.1).natAbs :=
          Int.natAbs_sub_le _ _
        _ = (euclidesRec b (a % b)).1.natAbs + a / b * (euclidesRec b (a % b)).2.1.natAbs := by
          rw [Int.natAbs_mul, Int.natAbs_ofNat]
      calc 2 * (euclidesRec b (a % b)).2.2 *
          ((euclidesRec b (a % b)).1 -
            ((a / b : ℕ) : ℤ) * (euclidesRec b (a % b)).2.1).natAbs
          ≤ 2 * (euclidesRec b (a % b)).2.2 *
            ((euclidesRec b (a % b)).1.natAbs + a / b * (euclidesRec b (a % b)).2.1.natAbs) :=
        Nat.mul_le_mul_left _ htri
      _ = 2 * (euclidesRec b (a % b)).2.2 * (euclidesRec b (a % b)).1.natAbs +
            (2 * (euclidesRec b (a % b)).2.2 * (euclidesRec b (a % b)).2.1.natAbs) * (a / b) := by
        ring
      _ ≤ a % b + b * (a / b) :=
        Nat.add_le_add hx (Nat.mul_le_mul_right (a / b) hy)
      _ = a := by omega

/-- `alg_euclides a b = euclidesRec a b` on the main branch `b ≤ a`. -/
theorem alg_euclides_eq_of_le (a b : ℕ) (h : b ≤ a) :
    alg_euclides a b = euclidesRec a b := by
  rw [alg_euclides, if_neg (by omega), cuerpoEuclides_eq_euclidesRec]

/-- `alg_euclides a b` on the swap branch `a < b`. -/
theorem alg_euclides_eq_of_lt (a b : ℕ) (h : a < b) :
    alg_euclides a b =
      ((euclidesRec b a).2.1, (euclidesRec b a).1, (euclidesRec b a).2.2) := by
  rw [alg_euclides, if_pos (by omega), cuerpoEuclides_eq_euclidesRec]

/-- Bézout, gcd and sign of the result of `alg_euclides`, for any inputs. -/
theorem alg_euclides_bezout_gcd (a b : ℕ) :
    (alg_euclides a b).1 * a + (alg_euclides a b).2.1 * b =
      ((alg_euclides a b).2.2 : ℤ) ∧ (alg_euclides a b).2.2 = Nat.gcd a b := by
  rcases Nat.lt_or_ge a b with h | h
  · rw [alg_euclides_eq_of_lt a b h]
    refine ⟨?_, ?_⟩
    · have := euclidesRec_bezout b a
      linarith
    · rw [euclidesRec_gcd, Nat.gcd_comm]
  · rw [alg_euclides_eq_of_le a b h]
    exact ⟨euclidesRec_bezout a b, euclidesRec_gcd a b⟩

/-- Strict cofactor bounds for `alg_euclides` when neither argument divides
the other. -/
theorem alg_euclides_cotas (a b : ℕ) (ha : 1 ≤ a) (hb : 1 ≤ b)
    (hab : ¬ a ∣ b) (hba : ¬ b ∣ a) :
    (alg_euclides a b).1.natAbs * (alg_euclides a b).2.2 < b ∧
    (alg_euclides a b).2.1.natAbs * (alg_euclides a b).2.2 < a := by
  rcases Nat.lt_or_ge a b with h | h
  · obtain ⟨h1, h2⟩ := euclidesRec_cotas a b (by omega) (by omega) hab
    rw [alg_euclides_eq_of_lt a b h]
    dsimp only
    have e1 : 2 * ((euclidesRec b a).2.1.natAbs * (euclidesRec b a).2.2) =
        2 * (euclidesRec b a).2.2 * (euclidesRec b a).2.1.natAbs := by ring
    have e2 : 2 * ((euclidesRec b a).1.natAbs * (euclidesRec b a).2.2) =
        2 * (euclidesRec b a).2.2 * (euclidesRec b a).1.natAbs := by ring
    exact ⟨by omega, by omega⟩
  · obtain ⟨h1, h2⟩ := euclidesRec_cotas b a (by omega) h hba
    rw [alg_euclides_eq_of_le a b h]
    have e1 : 2 * ((euclidesRec a b).1.natAbs * (euclidesRec a b).2.2) =
        2 * (euclidesRec a b).2.2 * (euclidesRec a b).1.natAbs := by ring
    have e2 : 2 * ((euclidesRec a b).2.1.natAbs * (euclidesRec a b).2.2) =
        2 * (euclidesRec a b).2.2 * (euclidesRec a b).2.1.natAbs := by ring
    exact ⟨by omega, by omega⟩

/-- C8.  For all integers `a, b ≥ 1`, `alg_euclides` returns `(x, y, d)` with
`x·a + y·b = d = gcd(a, b)` and `d ≥ 0`, and when neither of `a`, `b` divides
the other the cofactors satisfy `|x| < b / d` and `|y| < a / d` (stated
multiplied out, `|x|·d < b` and `|y|·d < a`, which is equivalent because
`d ∣ a` and `d ∣ b`). -/
theorem alg_euclides_extendido_correcto (a b : ℕ) (ha : 1 ≤ a) (hb : 1 ≤ b) :
    (alg_euclides a b).1 * a + (alg_euclides a b).2.1 * b =
        ((alg_euclides a b).2.2 : ℤ) ∧
      (alg_euclides a b).2.2 = Nat.gcd a b ∧
      0 ≤ ((alg_euclides a b).2.2 : ℤ) ∧
      (¬ a ∣ b → ¬ b ∣ a →
        (alg_euclides a b).1.natAbs * (alg_euclides a b).2.2 < b ∧
        (alg_euclides a b).2.1.natAbs * (alg_euclides a b).2.2 < a) := by
  obtain ⟨h1, h2⟩ := alg_euclides_bezout_gcd a b
  exact ⟨h1, h2, Int.ofNat_nonneg _, fun hab hba => alg_euclides_cotas a b ha hb hab hba⟩

/-- Witness for C8 at the concrete input `(54, 24)` from the source's doctest
(`alg_euclides(54, 24) = (1, -2, 6)`). -/
theorem alg_euclides_extendido_correcto_testigo :
    (alg_euclides 54 24).2.2 = Nat.gcd 54 24 ∧
      (alg_euclides 54 24).1.natAbs * (alg_euclides 54 24).2.2 < 24 :=
  ⟨(alg_euclides_extendido_correcto 54 24 (by decide) (by decide)).2.1,
   ((alg_euclides_extendido_correcto 54 24 (by decide) (by decide)).2.2.2
      (by decide) (by decide)).1⟩

/-! ## `aritmetica_elemental.Zp`: `EnteroModuloP.inverso`

`EnteroModuloP` is an `int` subclass holding the canonical representative
modulo the prime `p`; it is modelled by `ZMod p`.  `inverso` raises
`ZeroDivisionError` on `0` (modelled by `none`) and otherwise runs
`alg_euclides(self, p)` on the canonical representative and reduces the first
cofactor modulo `p`:

```
if self == 0:
    raise ZeroDivisionError
x, y, d = alg_euclides(self, EnteroModuloP.p)
return EnteroModuloP(x)
```
-/

/-- `EnteroModuloP.inverso`; `none` models the `ZeroDivisionError`. -/
def inverso (p : ℕ) (x : ZMod p) : Option (ZMod p) :=
  if x = 0 then none
  else some (((alg_euclides x.val p).1 : ℤ) : ZMod p)

/-- For `x ≠ 0` modulo a prime `p`, `inverso` succeeds and returns a
multiplicative inverse of `x`. -/
theorem inverso_correcto (p : ℕ) (hp : p.Prime) (x : ZMod p) (hx : x ≠ 0) :
    ∃ z : ZMod p, inverso p x = some z ∧ x * z = 1 := by
  have : NeZero p := ⟨hp.ne_zero⟩
  refine ⟨_, by rw [inverso, if_neg hx], ?_⟩
  have hval : x.val ≠ 0 := fun h => hx ((ZMod.val_eq_zero x).mp h)
  have hvlt : x.val < p := ZMod.val_lt x
  have hndvd : ¬ p ∣ x.val := fun h =>
    absurd (Nat.le_of_dvd (Nat.pos_of_ne_zero hval) h) (by omega)
  have hgcd : Nat.gcd x.val p = 1 := by
    have := (Nat.Prime.coprime_iff_not_dvd hp).mpr hndvd
    exact Nat.Coprime.gcd_eq_one (Nat.coprime_comm.mp this)
  obtain ⟨hbez, hd⟩ := alg_euclides_bezout_gcd x.val p
  rw [hgcd] at hd
  have hcast : ((alg_euclides x.val p).1 * x.val + (alg_euclides x.val p).2.1 * p : ℤ) = 1 := by
    rw [hbez, hd]
    norm_num
  have := congrArg (fun t : ℤ => (t : ZMod p)) hcast
  push_cast at this
  rw [ZMod.natCast_self, mul_zero, add_zero, ZMod.natCast_val, ZMod.cast_id] at this
  rw [mul_comm] at this
  exact this

/-- C6.  `inverso` fails (raises `ZeroDivisionError`, modelled by `none`)
exactly on `0`, and for `x ≠ 0` it returns a canonical representative `z` with
`x * z = 1`. -/
theorem inverso_cero_y_campo (p : ℕ) (hp : p.Prime) :
    (∀ x : ZMod p, inverso p x = none ↔ x = 0) ∧
      (∀ x : ZMod p, x ≠ 0 → ∃ z : ZMod p, inverso p x = some z ∧ x * z = 1) := by
  constructor
  · intro x
    constructor
    · intro h
      by_contra hx
      obtain ⟨z, hz, _⟩ := inverso_correcto p hp x hx
      rw [h] at hz
      exact Option.noConfusion hz
    · intro h
      rw [inverso, if_pos h]
  · exact fun x hx => inverso_correcto p hp x hx

/-- Witness for C6 at `p = 7` and `x = 6` (the doctest `Z7(6).inverso() = 6`
computes an inverse of `6`). -/
theorem inverso_cero_y_campo_testigo :
    inverso 7 (0 : ZMod 7) = none ∧
      ∃ z : ZMod 7, inverso 7 (6 : ZMod 7) = some z ∧ (6 : ZMod 7) * z = 1 := by
  have h := inverso_cero_y_campo 7 (by norm_num)
  exact ⟨(h.1 0).mpr rfl, h.2 6 (by decide)⟩

/-! ## `curvas_elipticas`: points of an elliptic curve

A point is modelled by `Option (F × F)`: `none` is the neutral element (the
source represents it by absent coordinates, `_x is None or _y is None`), and
`some (x, y)` is an affine point.  The group operations of
`curva_eliptica_sobre_Fq` (short Weierstrass form `y² = x³ + a·x + b` over a
field of characteristic ≠ 2, 3) are duck-typed over the field operations in
the source, so they are embedded over an arbitrary `Field F` with decidable
equality.

Each operation comes in two forms: the *total* form computes the group-law
formulas directly, and the *checked* form (suffix `Chk`) additionally runs the
constructor's membership test, returning `none` for the constructor's
`ValueError` ("El punto no pertenece a la curva").
-/

/-- A point of an elliptic curve; `none` is the neutral element. -/
abbrev Punto (F : Type _) := Option (F × F)

section CurvaFq

variable {F : Type _} [Field F] [DecidableEq F]

/-- `PuntoFqRacional.contiene`: membership test `y² = x³ + a·x + b`. -/
def contieneFq (a b x y : F) : Prop :=
  y ^ 2 = x ^ 3 + a * x + b

instance (a b x y : F) : Decidable (contieneFq a b x y) := by
  unfold contieneFq
  infer_instance

/-- A point value is the neutral element or an affine point on the curve. -/
def enCurvaFq (a b : F) : Punto F → Prop
  | none => True
  | some (x, y) => contieneFq a b x y

instance (a b : F) (P : Punto F) : Decidable (enCurvaFq a b P) := by
  unfold enCurvaFq
  cases P with
  | none => exact inferInstanceAs (Decidable True)
  | some par => exact inferInstanceAs (Decidable (contieneFq a b par.1 par.2))

/-- `PuntoFqRacional.__init__` for affine coordinates: the constructor's
membership check; `none` models the `ValueError`. -/
def nuevoPuntoFq (a b x y : F) : Option (Punto F) :=
  if contieneFq a b x y then some (some (x, y)) else none

/-- `PuntoFqRacional.__add__`, total form (the group-law formulas, without the
constructor's membership check).  The source compares `self == other` (both
coordinates) first, then `x1 == x2`. -/
def sumaFq (a : F) : Punto F → Punto F → Punto F
  | none, otro => otro
  | some (x₁, y₁), none => some (x₁, y₁)
  | some (x₁, y₁), some (x₂, y₂) =>
    if x₁ = x₂ ∧ y₁ = y₂ then
      if y₁ = 0 then none
      else
        let m := ((3 : F) * x₁ ^ 2 + a) / ((2 : F) * y₁)
        let x₃ := m ^ 2 - (2 : F) * x₁
        some (x₃, m * (x₁ - x₃) - y₁)
    else if x₁ = x₂ then none
    else
      let m := (y₂ - y₁) / (x₂ - x₁)
      let x₃ := m ^ 2 - x₁ - x₂
      some (x₃, m * (x₁ - x₃) - y₁)

/-- `PuntoFqRacional.__neg__`, total form. -/
def negFq : Punto F → Punto F
  | none => none
  | some (x, y) => some (x, -y)

/-- Little-endian binary digits of a natural number (empty for `0`). -/
def bitsLE : ℕ → List Bool
  | 0 => []
  | n + 1 => decide ((n + 1) % 2 = 1) :: bitsLE ((n + 1) / 2)
termination_by n => n
decreasing_by exact Nat.div_lt_self (Nat.succ_pos n) (by norm_num)

/-- The digit string `bin(k)[2:]` iterated by `_multiplicacion_por_duplicacion`
(most significant bit first; `"0"` for `k = 0`). -/
def repBinaria (k : ℕ) : List Bool :=
  if k = 0 then [false] else (bitsLE k).reverse

/-- The value of a most-significant-bit-first digit string. -/
def valorBits (l : List Bool) : ℕ :=
  l.foldl (fun n b => 2 * n + cond b 1 0) 0

/-- `PuntoFqRacional._multiplicacion_por_duplicacion`: left-to-right
double-and-add over the binary expansion of `k`. -/
def multiplicacionPorDuplicacionFq (a : F) (punto : Punto F) (k : ℕ) : Punto F :=
  (repBinaria k).foldl
    (fun Q ki => if ki then sumaFq a (sumaFq a Q Q) punto else sumaFq a Q Q) none

/-- `PuntoFqRacional.__mul__` (and `__rmul__`), total form. -/
def multFq (a : F) (P : Punto F) (entero : ℤ) : Punto F :=
  match P with
  | none => none
  | some par =>
    if entero < 0 then multiplicacionPorDuplicacionFq a (negFq (some par)) (-entero).toNat
    else multiplicacionPorDuplicacionFq a (some par) entero.toNat

/-- Repeated addition of `n` copies of `P` (the specification's reference
semantics for scalar multiplication). -/
def sumaRepetidaFq (a : F) (P : Punto F) : ℕ → Punto F
  | 0 => none
  | n + 1 => sumaFq a (sumaRepetidaFq a P n) P

/-- `PuntoFqRacional.__add__`, checked form: the affine results go through the
constructor's membership check. -/
def sumaChkFq (a b : F) : Punto F → Punto F → Option (Punto F)
  | none, otro => some otro
  | some (x₁, y₁), none => some (some (x₁, y₁))
  | some (x₁, y₁), some (x₂, y₂) =>
    if x₁ = x₂ ∧ y₁ = y₂ then
      if y₁ = 0 then some none
      else
        let m := ((3 : F) * x₁ ^ 2 + a) / ((2 : F) * y₁)
        let x₃ := m ^ 2 - (2 : F) * x₁
        nuevoPuntoFq a b x₃ (m * (x₁ - x₃) - y₁)
    else if x₁ = x₂ then some none
    else
      let m := (y₂ - y₁) / (x₂ - x₁)
      let x₃ := m ^ 2 - x₁ - x₂
      nuevoPuntoFq a b x₃ (m * (x₁ - x₃) - y₁)

/-- `PuntoFqRacional.__neg__`, checked form. -/
def negChkFq (a b : F) : Punto F → Option (Punto F)
  | none => some none
  | some (x, y) => nuevoPuntoFq a b x (-y)

/-- `PuntoFqRacional.__sub__`: `self + (-other)`, checked form. -/
def restaChkFq (a b : F) (P Q : Punto F) : Option (Punto F) :=
  (negChkFq a b Q).bind (sumaChkFq a b P)

/-- The double-and-add loop, checked form. -/
def bucleDupChkFq (a b : F) (punto : Punto F) : List Bool → Punto F → Option (Punto F)
  | [], Q => some Q
  | ki :: resto, Q =>
    (sumaChkFq a b Q Q).bind fun Q2 =>
      (if ki then sumaChkFq a b Q2 punto else some Q2).bind fun Q3 =>
        bucleDupChkFq a b punto resto Q3

/-- `_multiplicacion_por_duplicacion`, checked form. -/
def multiplicacionPorDuplicacionChkFq (a b : F) (punto : Punto F) (k : ℕ) : Option (Punto F) :=
  bucleDupChkFq a b punto (repBinaria k) none

/-- `PuntoFqRacional.__mul__`, checked form. -/
def multChkFq (a b : F) (P : Punto F) (entero : ℤ) : Option (Punto F) :=
  match P with
  | none => some none
  | some par =>
    if entero < 0 then
      (negChkFq a b (some par)).bind fun Pneg =>
        multiplicacionPorDuplicacionChkFq a b Pneg (-entero).toNat
    else multiplicacionPorDuplicacionChkFq a b (some par) entero.toNat

/-! ### Correspondence with Mathlib's `WeierstrassCurve.Affine.Point` group -/

/-- The short Weierstrass curve `y² = x³ + a·x + b` as a Mathlib
`WeierstrassCurve`. -/
def curvaW (a b : F) : WeierstrassCurve.Affine F :=
  ⟨0, 0, 0, a, b⟩

theorem curvaW_ecuacion (a b x y : F) :
    (curvaW a b).Equation x y ↔ contieneFq a b x y := by
  rw [WeierstrassCurve.Affine.equation_iff]
  unfold curvaW contieneFq
  constructor <;> intro h <;> linear_combination h

theorem curvaW_delta (a b : F) :
    (curvaW a b).Δ = -16 * (4 * a ^ 3 + 27 * b ^ 2) := by
  unfold curvaW
  rw [WeierstrassCurve.Δ, WeierstrassCurve.b₂, WeierstrassCurve.b₄,
    WeierstrassCurve.b₆, WeierstrassCurve.b₈]
  ring

theorem curvaW_delta_ne_cero (a b : F) (h2 : (2 : F) ≠ 0)
    (hd : 4 * a ^ 3 + 27 * b ^ 2 ≠ 0) : (curvaW a b).Δ ≠ 0 := by
  rw [curvaW_delta]
  refine mul_ne_zero ?_ hd
  have h16 : (16 : F) = 2 ^ 4 := by norm_num
  intro h
  rw [neg_eq_zero, h16] at h
  exact pow_ne_zero 4 h2 h

/-- Projection from Mathlib's point type to the embedded point type. -/
def proyFq {a b : F} : (curvaW a b).Point → Punto F
  | .zero => none
  | @WeierstrassCurve.Affine.Point.some _ _ _ x y _ => some (x, y)

theorem enCurvaFq_proyFq {a b : F} (P : (curvaW a b).Point) :
    enCurvaFq a b (proyFq P) := by
  cases P with
  | zero => trivial
  | @some x y h =>
    exact (curvaW_ecuacion a b x y).mp h.1

theorem existe_levantamientoFq {a b : F} (h2 : (2 : F) ≠ 0)
    (hd : 4 * a ^ 3 + 27 * b ^ 2 ≠ 0) (P : Punto F) (hP : enCurvaFq a b P) :
    ∃ Pm : (curvaW a b).Point, proyFq Pm = P := by
  cases P with
  | none => exact ⟨.zero, rfl⟩
  | some par =>
    exact ⟨.some (WeierstrassCurve.Affine.nonsingular_of_Δ_ne_zero _
      ((curvaW_ecuacion a b par.1 par.2).mpr hP) (curvaW_delta_ne_cero a b h2 hd)), rfl⟩

theorem proyFq_neg {a b : F} (P : (curvaW a b).Point) :
    proyFq (-P) = negFq (proyFq P) := by
  cases P with
  | zero => rfl
  | @some x y h =>
    show proyFq (.some (WeierstrassCurve.Affine.nonsingular_neg h)) = _
    show some (x, (curvaW a b).negY x y) = some (x, -y)
    simp [curvaW, WeierstrassCurve.Affine.negY]

/-- The central correspondence: the embedded `__add__` computes Mathlib's
group law on the curve. -/
theorem proyFq_suma {a b : F} (h2 : (2 : F) ≠ 0) (P Q : (curvaW a b).Point) :
    proyFq (P + Q) = sumaFq a (proyFq P) (proyFq Q) := by
  cases P with
  | zero =>
    have h0 : (WeierstrassCurve.Affine.Point.zero : (curvaW a b).Point) + Q = Q := by
      rw [WeierstrassCurve.Affine.Point.zero_def, zero_add]
    rw [h0]
    rfl
  | @some x₁ y₁ h₁ =>
    cases Q with
    | zero =>
      have h0 : WeierstrassCurve.Affine.Point.some h₁ +
          (WeierstrassCurve.Affine.Point.zero : (curvaW a b).Point) =
          WeierstrassCurve.Affine.Point.some h₁ := by
        rw [WeierstrassCurve.Affine.Point.zero_def, add_zero]
      rw [h0]
      rfl
    | @some x₂ y₂ hq₂ =>
      have e₁ : y₁ ^ 2 = x₁ ^ 3 + a * x₁ + b := (curvaW_ecuacion a b x₁ y₁).mp h₁.1
      have e₂ : y₂ ^ 2 = x₂ ^ 3 + a * x₂ + b := (curvaW_ecuacion a b x₂ y₂).mp hq₂.1
      by_cases hx : x₁ = x₂
      · have hnegY : (curvaW a b).negY x₂ y₂ = -y₂ := by
          simp [curvaW, WeierstrassCurve.Affine.negY]
        by_cases hy : y₁ = (curvaW a b).negY x₂ y₂
        · rw [WeierstrassCurve.Affine.Point.add_of_Y_eq hx hy]
          have hyy : y₁ = -y₂ := by rw [hy, hnegY]
          subst hx
          show (none : Punto F) = sumaFq a (some (x₁, y₁)) (some (x₁, y₂))
          by_cases hyeq : y₁ = y₂
          · have hy0 : y₁ = 0 := by
              have hdos : (2 : F) * y₁ = 0 := by linear_combination hyy + hyeq
              rcases mul_eq_zero.mp hdos with h | h
              · exact absurd h h2
              · exact h
            have hy20 : y₂ = 0 := by rw [← hyeq]; exact hy0
            simp [sumaFq, hyeq, hy0, hy20]
          · simp [sumaFq, hyeq]
        · -- tangent (doubling) case
          have hyy : y₁ = y₂ := by
            have hneq : y₁ ≠ -y₂ := fun h => hy (by rw [hnegY, h])
            have hcuad : (y₁ - y₂) * (y₁ + y₂) = 0 := by
              rw [hx] at e₁
              linear_combination e₁ - e₂
            rcases mul_eq_zero.mp hcuad with h | h
            · exact sub_eq_zero.mp h
            · exact absurd (by linear_combination h) hneq
          subst hx
          subst hyy
          have hy0 : y₁ ≠ 0 := by
            intro h0
            exact hy (by rw [hnegY, h0, neg_zero])
          rw [WeierstrassCurve.Affine.Point.add_of_Y_ne hy]
          have hL : (curvaW a b).slope x₁ x₁ y₁ y₁ = ((3 : F) * x₁ ^ 2 + a) / ((2 : F) * y₁) := by
            rw [WeierstrassCurve.Affine.slope_of_Y_ne rfl hy]
            have hden : y₁ - (curvaW a b).negY x₁ y₁ = (2 : F) * y₁ := by
              simp [curvaW, WeierstrassCurve.Affine.negY]
              ring
            have hnum : 3 * x₁ ^ 2 + 2 * (curvaW a b).a₂ * x₁ + (curvaW a b).a₄ -
                (curvaW a b).a₁ * y₁ = (3 : F) * x₁ ^ 2 + a := by
              show 3 * x₁ ^ 2 + 2 * 0 * x₁ + a - 0 * y₁ = (3 : F) * x₁ ^ 2 + a
              ring
            rw [hden, hnum]
          show some ((curvaW a b).addX x₁ x₁ ((curvaW a b).slope x₁ x₁ y₁ y₁),
              (curvaW a b).addY x₁ x₁ y₁ ((curvaW a b).slope x₁ x₁ y₁ y₁)) = _
          rw [hL]
          simp only [proyFq, sumaFq, if_pos (And.intro rfl rfl), if_neg hy0]
          set m := ((3 : F) * x₁ ^ 2 + a) / ((2 : F) * y₁) with hm
          unfold WeierstrassCurve.Affine.addY WeierstrassCurve.Affine.negAddY
            WeierstrassCurve.Affine.addX WeierstrassCurve.Affine.negY
          show some (m ^ 2 + 0 * m - 0 - x₁ - x₁,
              -(m * (m ^ 2 + 0 * m - 0 - x₁ - x₁ - x₁) + y₁) - 0 * (m ^ 2 + 0 * m - 0 - x₁ - x₁) - 0) = _
          refine congrArg some (Prod.ext ?_ ?_)
          · show m ^ 2 + 0 * m - 0 - x₁ - x₁ = m ^ 2 - 2 * x₁
            ring
          · show -(m * (m ^ 2 + 0 * m - 0 - x₁ - x₁ - x₁) + y₁) - 0 * (m ^ 2 + 0 * m - 0 - x₁ - x₁) - 0 =
              m * (x₁ - (m ^ 2 - 2 * x₁)) - y₁
            ring
      · -- chord case
        rw [WeierstrassCurve.Affine.Point.add_of_X_ne hx]
        have hL : (curvaW a b).slope x₁ x₂ y₁ y₂ = (y₂ - y₁) / (x₂ - x₁) := by
          rw [WeierstrassCurve.Affine.slope_of_X_ne hx]
          rw [← neg_sub y₂ y₁, ← neg_sub x₂ x₁, neg_div_neg_eq]
        show some ((curvaW a b).addX x₁ x₂ ((curvaW a b).slope x₁ x₂ y₁ y₂),
            (curvaW a b).addY x₁ x₂ y₁ ((curvaW a b).slope x₁ x₂ y₁ y₂)) = _
        rw [hL]
        simp only [proyFq, sumaFq, if_neg (fun h : x₁ = x₂ ∧ y₁ = y₂ => hx h.1), if_neg hx]
        set m := (y₂ - y₁) / (x₂ - x₁) with hm
        unfold WeierstrassCurve.Affine.addY WeierstrassCurve.Affine.negAddY
          WeierstrassCurve.Affine.addX WeierstrassCurve.Affine.negY
        show some (m ^ 2 + 0 * m - 0 - x₁ - x₂,
            -(m * (m ^ 2 + 0 * m - 0 - x₁ - x₂ - x₁) + y₁) - 0 * (m ^ 2 + 0 * m - 0 - x₁ - x₂) - 0) = _
        refine congrArg some (Prod.ext ?_ ?_)
        · show m ^ 2 + 0 * m - 0 - x₁ - x₂ = m ^ 2 - x₁ - x₂
          ring
        · show -(m * (m ^ 2 + 0 * m - 0 - x₁ - x₂ - x₁) + y₁) - 0 * (m ^ 2 + 0 * m - 0 - x₁ - x₂) - 0 =
            m * (x₁ - (m ^ 2 - x₁ - x₂)) - y₁
          ring

theorem valorBits_desde (l : List Bool) (n : ℕ) :
    l.foldl (fun n b => 2 * n + cond b 1 0) n = n * 2 ^ l.length + valorBits l := by
  induction l generalizing n with
  | nil => simp [valorBits]
  | cons b l ih =>
    show l.foldl _ (2 * n + cond b 1 0) = n * 2 ^ (l.length + 1) + valorBits (b :: l)
    rw [ih (2 * n + cond b 1 0)]
    have : valorBits (b :: l) = cond b 1 0 * 2 ^ l.length + valorBits l := by
      show l.foldl _ (2 * 0 + cond b 1 0) = _
      rw [ih (2 * 0 + cond b 1 0)]
      ring
    rw [this]
    ring

theorem valorBits_bitsLE_reverse (k : ℕ) : valorBits (bitsLE k).reverse = k := by
  induction k using Nat.strong_induction_on with
  | _ k ih =>
    match k with
    | 0 => simp [bitsLE, valorBits]
    | n + 1 =>
      rw [bitsLE]
      rw [List.reverse_cons]
      unfold valorBits
      rw [List.foldl_append]
      have hrec := ih ((n + 1) / 2) (Nat.div_lt_self (Nat.succ_pos n) (by norm_num))
      unfold valorBits at hrec
      rw [hrec]
      show 2 * ((n + 1) / 2) + cond (decide ((n + 1) % 2 = 1)) 1 0 = n + 1
      by_cases hpar : (n + 1) % 2 = 1
      · have hb : decide ((n + 1) % 2 = 1) = true := decide_eq_true hpar
        rw [hb]
        show 2 * ((n + 1) / 2) + 1 = n + 1
        omega
      · have hb : decide ((n + 1) % 2 = 1) = false := decide_eq_false hpar
        rw [hb]
        show 2 * ((n + 1) / 2) + 0 = n + 1
        omega

theorem valorBits_repBinaria (k : ℕ) : valorBits (repBinaria k) = k := by
  unfold repBinaria
  by_cases h : k = 0
  · subst h
    simp [valorBits]
  · rw [if_neg h, valorBits_bitsLE_reverse]

/-- One step of the double-and-add loop, at the level of Mathlib's group. -/
theorem pasoDup_eq {W : WeierstrassCurve.Affine F} (P Q : W.Point) (ki : Bool) :
    (if ki then (Q + Q) + P else Q + Q) = (Q + Q) + (cond ki 1 0 : ℕ) • P := by
  cases ki <;> simp

theorem foldl_dup_smul {W : WeierstrassCurve.Affine F} (P : W.Point) (l : List Bool)
    (Q : W.Point) :
    l.foldl (fun R ki => if ki then (R + R) + P else R + R) Q =
      2 ^ l.length • Q + valorBits l • P := by
  induction l generalizing Q with
  | nil => simp [valorBits]
  | cons ki l ih =>
    show l.foldl _ (if ki then (Q + Q) + P else Q + Q) = _
    rw [ih, pasoDup_eq]
    have hval : valorBits (ki :: l) = cond ki 1 0 * 2 ^ l.length + valorBits l := by
      show l.foldl _ (2 * 0 + cond ki 1 0) = _
      rw [valorBits_desde]
      ring
    rw [hval]
    have hQ2 : Q + Q = (2 : ℕ) • Q := (two_smul ℕ Q).symm
    rw [hQ2, smul_add, smul_smul, smul_smul, List.length_cons, add_smul, pow_succ]
    rw [mul_comm (2 ^ l.length) (cond ki 1 0 : ℕ), mul_comm (2 ^ l.length) 2]
    abel

theorem foldl_dup_proy {a b : F} (h2 : (2 : F) ≠ 0) (P : (curvaW a b).Point)
    (l : List Bool) (Q : (curvaW a b).Point) :
    l.foldl (fun R ki => if ki then sumaFq a (sumaFq a R R) (proyFq P) else sumaFq a R R)
        (proyFq Q) =
      proyFq (l.foldl (fun R ki => if ki then (R + R) + P else R + R) Q) := by
  induction l generalizing Q with
  | nil => rfl
  | cons ki l ih =>
    show l.foldl _ (if ki then sumaFq a (sumaFq a (proyFq Q) (proyFq Q)) (proyFq P)
        else sumaFq a (proyFq Q) (proyFq Q)) = _
    have hpaso : (if ki then sumaFq a (sumaFq a (proyFq Q) (proyFq Q)) (proyFq P)
        else sumaFq a (proyFq Q) (proyFq Q)) =
        proyFq (if ki then (Q + Q) + P else Q + Q) := by
      cases ki <;> simp [proyFq_suma h2]
    rw [hpaso, ih]
    rfl

theorem proyFq_cero {a b : F} : proyFq (0 : (curvaW a b).Point) = none := rfl

/-- The embedded double-and-add computes the `k`-fold sum `k • P`. -/
theorem multiplicacionPorDuplicacionFq_proy {a b : F} (h2 : (2 : F) ≠ 0)
    (P : (curvaW a b).Point) (k : ℕ) :
    multiplicacionPorDuplicacionFq a (proyFq P) k = proyFq (k • P) := by
  unfold multiplicacionPorDuplicacionFq
  have h0 := foldl_dup_proy h2 P (repBinaria k) 0
  rw [proyFq_cero] at h0
  rw [h0, foldl_dup_smul, smul_zero, zero_add, valorBits_repBinaria]

/-- The embedded `__mul__` computes the `ℤ`-scalar multiple `e • P`. -/
theorem multFq_proy {a b : F} (h2 : (2 : F) ≠ 0) (P : (curvaW a b).Point) (e : ℤ) :
    multFq a (proyFq P) e = proyFq (e • P) := by
  cases P with
  | zero =>
    show multFq a none e = proyFq (e • (0 : (curvaW a b).Point))
    rw [smul_zero]
    rfl
  | @some x y h =>
    have hdef : multFq a (some (x, y)) e =
        if e < 0 then multiplicacionPorDuplicacionFq a (negFq (some (x, y))) (-e).toNat
        else multiplicacionPorDuplicacionFq a (some (x, y)) e.toNat := rfl
    show multFq a (some (x, y)) e = _
    rw [hdef]
    by_cases he : e < 0
    · rw [if_pos he]
      have hneg : (some (x, y) : Punto F) = proyFq (WeierstrassCurve.Affine.Point.some h) := rfl
      have h1 : negFq (some (x, y) : Punto F) =
          proyFq (-WeierstrassCurve.Affine.Point.some h) := by
        rw [proyFq_neg]
        rfl
      rw [h1, multiplicacionPorDuplicacionFq_proy h2]
      congr 1
      rw [← natCast_zsmul, Int.toNat_of_nonneg (by omega), neg_smul, smul_neg, neg_neg]
    · rw [if_neg he]
      have hneg : (some (x, y) : Punto F) = proyFq (WeierstrassCurve.Affine.Point.some h) := rfl
      rw [hneg, multiplicacionPorDuplicacionFq_proy h2]
      congr 1
      rw [← natCast_zsmul, Int.toNat_of_nonneg (by omega)]

/-- Repeated addition computes `n • P`. -/
theorem sumaRepetidaFq_proy {a b : F} (h2 : (2 : F) ≠ 0) (P : (curvaW a b).Point) (n : ℕ) :
    sumaRepetidaFq a (proyFq P) n = proyFq (n • P) := by
  induction n with
  | zero =>
    show (none : Punto F) = proyFq (0 • P)
    rw [zero_smul, proyFq_cero]
  | succ n ih =>
    show sumaFq a (sumaRepetidaFq a (proyFq P) n) (proyFq P) = _
    rw [ih, ← proyFq_suma h2, succ_nsmul]

/-- Closure of the total addition: the sum of two points of the curve is a
point of the curve. -/
theorem cerraduraSumaFq {a b : F} (h2 : (2 : F) ≠ 0)
    (hd : 4 * a ^ 3 + 27 * b ^ 2 ≠ 0) (P Q : Punto F)
    (hP : enCurvaFq a b P) (hQ : enCurvaFq a b Q) :
    enCurvaFq a b (sumaFq a P Q) := by
  obtain ⟨Pm, hPm⟩ := existe_levantamientoFq h2 hd P hP
  obtain ⟨Qm, hQm⟩ := existe_levantamientoFq h2 hd Q hQ
  rw [← hPm, ← hQm, ← proyFq_suma h2]
  exact enCurvaFq_proyFq _

/-- Closure of negation. -/
theorem cerraduraNegFq {a b : F} (P : Punto F) (hP : enCurvaFq a b P) :
    enCurvaFq a b (negFq P) := by
  rcases P with _ | ⟨x, y⟩
  · trivial
  · have hP2 : y ^ 2 = x ^ 3 + a * x + b := hP
    show (-y) ^ 2 = x ^ 3 + a * x + b
    linear_combination hP2

/-- Closure of scalar multiplication. -/
theorem cerraduraMultFq {a b : F} (h2 : (2 : F) ≠ 0)
    (hd : 4 * a ^ 3 + 27 * b ^ 2 ≠ 0) (P : Punto F) (hP : enCurvaFq a b P) (e : ℤ) :
    enCurvaFq a b (multFq a P e) := by
  obtain ⟨Pm, hPm⟩ := existe_levantamientoFq h2 hd P hP
  rw [← hPm, multFq_proy h2]
  exact enCurvaFq_proyFq _

/-- The checked addition succeeds on points of the curve and computes the
total addition: the constructor's `ValueError` is never raised. -/
theorem sumaChkFq_eq {a b : F} (h2 : (2 : F) ≠ 0)
    (hd : 4 * a ^ 3 + 27 * b ^ 2 ≠ 0) (P Q : Punto F)
    (hP : enCurvaFq a b P) (hQ : enCurvaFq a b Q) :
    sumaChkFq a b P Q = some (sumaFq a P Q) := by
  have hres := cerraduraSumaFq h2 hd P Q hP hQ
  rcases P with _ | ⟨x₁, y₁⟩
  · rfl
  rcases Q with _ | ⟨x₂, y₂⟩
  · rfl
  by_cases hxy : x₁ = x₂ ∧ y₁ = y₂
  · by_cases hy0 : y₁ = 0
    · simp only [sumaChkFq, sumaFq, if_pos hxy, if_pos hy0]
    · simp only [sumaChkFq, sumaFq, if_pos hxy, if_neg hy0] at hres ⊢
      unfold nuevoPuntoFq
      exact if_pos hres
  · by_cases hx : x₁ = x₂
    · simp only [sumaChkFq, sumaFq, if_neg hxy, if_pos hx]
    · simp only [sumaChkFq, sumaFq, if_neg hxy, if_neg hx] at hres ⊢
      unfold nuevoPuntoFq
      exact if_pos hres

/-- The checked negation succeeds on points of the curve. -/
theorem negChkFq_eq {a b : F} (P : Punto F) (hP : enCurvaFq a b P) :
    negChkFq a b P = some (negFq P) := by
  have hres := cerraduraNegFq P hP
  rcases P with _ | ⟨x, y⟩
  · rfl
  · show nuevoPuntoFq a b x (-y) = some (some (x, -y))
    unfold nuevoPuntoFq
    exact if_pos hres

/-- The checked subtraction succeeds on points of the curve. -/
theorem restaChkFq_eq {a b : F} (h2 : (2 : F) ≠ 0)
    (hd : 4 * a ^ 3 + 27 * b ^ 2 ≠ 0) (P Q : Punto F)
    (hP : enCurvaFq a b P) (hQ : enCurvaFq a b Q) :
    restaChkFq a b P Q = some (sumaFq a P (negFq Q)) := by
  unfold restaChkFq
  rw [negChkFq_eq Q hQ]
  exact sumaChkFq_eq h2 hd P (negFq Q) hP (cerraduraNegFq Q hQ)

theorem bucleDupChkFq_eq {a b : F} (h2 : (2 : F) ≠ 0)
    (hd : 4 * a ^ 3 + 27 * b ^ 2 ≠ 0) (punto : Punto F) (hpunto : enCurvaFq a b punto)
    (l : List Bool) :
    ∀ Q : Punto F, enCurvaFq a b Q →
      bucleDupChkFq a b punto l Q =
        some (l.foldl
          (fun R ki => if ki then sumaFq a (sumaFq a R R) punto else sumaFq a R R) Q) := by
  induction l with
  | nil => intro Q _; rfl
  | cons ki resto ih =>
    intro Q hQ
    have h1 : sumaChkFq a b Q Q = some (sumaFq a Q Q) := sumaChkFq_eq h2 hd Q Q hQ hQ
    have hQ2 : enCurvaFq a b (sumaFq a Q Q) := cerraduraSumaFq h2 hd Q Q hQ hQ
    show (sumaChkFq a b Q Q).bind _ = _
    rw [h1]
    show (if ki then sumaChkFq a b (sumaFq a Q Q) punto else some (sumaFq a Q Q)).bind _ = _
    cases ki
    · show (some (sumaFq a Q Q)).bind _ = _
      rw [Option.some_bind]
      exact ih (sumaFq a Q Q) hQ2
    · show (sumaChkFq a b (sumaFq a Q Q) punto).bind _ = _
      rw [sumaChkFq_eq h2 hd _ _ hQ2 hpunto, Option.some_bind]
      exact ih (sumaFq a (sumaFq a Q Q) punto)
        (cerraduraSumaFq h2 hd _ _ hQ2 hpunto)

/-- The checked scalar multiplication succeeds on points of the curve and
computes the total scalar multiplication. -/
theorem multChkFq_eq {a b : F} (h2 : (2 : F) ≠ 0)
    (hd : 4 * a ^ 3 + 27 * b ^ 2 ≠ 0) (P : Punto F) (hP : enCurvaFq a b P) (e : ℤ) :
    multChkFq a b P e = some (multFq a P e) := by
  rcases P with _ | ⟨x, y⟩
  · rfl
  by_cases he : e < 0
  · have hdef0 : multChkFq a b (some (x, y)) e =
        (negChkFq a b (some (x, y))).bind fun Pneg =>
          multiplicacionPorDuplicacionChkFq a b Pneg (-e).toNat := by
      show (if e < 0 then (negChkFq a b (some (x, y))).bind (fun Pneg =>
          multiplicacionPorDuplicacionChkFq a b Pneg (-e).toNat)
        else multiplicacionPorDuplicacionChkFq a b (some (x, y)) e.toNat) = _
      rw [if_pos he]
    rw [hdef0, negChkFq_eq _ hP, Option.some_bind]
    unfold multiplicacionPorDuplicacionChkFq
    rw [bucleDupChkFq_eq h2 hd _ (cerraduraNegFq _ hP) _ none trivial]
    have hdef : multFq a (some (x, y)) e =
        multiplicacionPorDuplicacionFq a (negFq (some (x, y))) (-e).toNat := by
      show (if e < 0 then multiplicacionPorDuplicacionFq a (negFq (some (x, y))) (-e).toNat
        else multiplicacionPorDuplicacionFq a (some (x, y)) e.toNat) = _
      rw [if_pos he]
    rw [hdef]
    rfl
  · have hdef0 : multChkFq a b (some (x, y)) e =
        multiplicacionPorDuplicacionChkFq a b (some (x, y)) e.toNat := by
      show (if e < 0 then (negChkFq a b (some (x, y))).bind (fun Pneg =>
          multiplicacionPorDuplicacionChkFq a b Pneg (-e).toNat)
        else multiplicacionPorDuplicacionChkFq a b (some (x, y)) e.toNat) = _
      rw [if_neg he]
    rw [hdef0]
    unfold multiplicacionPorDuplicacionChkFq
    rw [bucleDupChkFq_eq h2 hd _ hP _ none trivial]
    have hdef : multFq a (some (x, y)) e =
        multiplicacionPorDuplicacionFq a (some (x, y)) e.toNat := by
      show (if e < 0 then multiplicacionPorDuplicacionFq a (negFq (some (x, y))) (-e).toNat
        else multiplicacionPorDuplicacionFq a (some (x, y)) e.toNat) = _
      rw [if_neg he]
    rw [hdef]
    rfl

end CurvaFq

/-! ## `curva_eliptica_sobre_F2m`: the curve `y² + x·y = x³ + a·x² + b` over a
field of characteristic 2 (in the source, `Fq(2, m)`). -/

section CurvaF2m

variable {F : Type _} [Field F] [DecidableEq F]

/-- `PuntoF2mRacional.contiene`: membership test `y² + x·y = x³ + a·x² + b`. -/
def contieneF2m (a b x y : F) : Prop :=
  y ^ 2 + x * y = x ^ 3 + a * x ^ 2 + b

instance (a b x y : F) : Decidable (contieneF2m a b x y) := by
  unfold contieneF2m
  infer_instance

/-- A point value is the neutral element or an affine point on the curve. -/
def enCurvaF2m (a b : F) : Punto F → Prop
  | none => True
  | some (x, y) => contieneF2m a b x y

instance (a b : F) (P : Punto F) : Decidable (enCurvaF2m a b P) := by
  unfold enCurvaF2m
  cases P with
  | none => exact inferInstanceAs (Decidable True)
  | some par => exact inferInstanceAs (Decidable (contieneF2m a b par.1 par.2))

/-- `PuntoF2mRacional.__add__`, total form. -/
def sumaF2m (a : F) : Punto F → Punto F → Punto F
  | none, otro => otro
  | some (x₁, y₁), none => some (x₁, y₁)
  | some (x₁, y₁), some (x₂, y₂) =>
    if x₁ = x₂ ∧ y₁ = y₂ then
      if x₁ = 0 then none
      else
        let m := x₁ + y₁ / x₁
        let x₃ := m ^ 2 + m + a
        some (x₃, x₁ ^ 2 + (m + 1) * x₃)
    else if x₁ = x₂ then none
    else
      let m := (y₁ + y₂) / (x₁ + x₂)
      let x₃ := m ^ 2 + m + x₁ + x₂ + a
      some (x₃, m * (x₁ + x₃) + x₃ + y₁)

/-- `PuntoF2mRacional.__neg__`, total form: `-(x, y) = (x, x + y)`. -/
def negF2m : Punto F → Punto F
  | none => none
  | some (x, y) => some (x, x + y)

/-- `PuntoF2mRacional._multiplicacion_por_duplicacion`. -/
def multiplicacionPorDuplicacionF2m (a : F) (punto : Punto F) (k : ℕ) : Punto F :=
  (repBinaria k).foldl
    (fun Q ki => if ki then sumaF2m a (sumaF2m a Q Q) punto else sumaF2m a Q Q) none

/-- `PuntoF2mRacional.__mul__` (and `__rmul__`), total form. -/
def multF2m (a : F) (P : Punto F) (entero : ℤ) : Punto F :=
  match P with
  | none => none
  | some par =>
    if entero < 0 then multiplicacionPorDuplicacionF2m a (negF2m (some par)) (-entero).toNat
    else multiplicacionPorDuplicacionF2m a (some par) entero.toNat

/-- Repeated addition of `n` copies of `P` on the `F_{2^m}` curve. -/
def sumaRepetidaF2m (a : F) (P : Punto F) : ℕ → Punto F
  | 0 => none
  | n + 1 => sumaF2m a (sumaRepetidaF2m a P n) P

/-- The curve `y² + x·y = x³ + a·x² + b` as a Mathlib `WeierstrassCurve`. -/
def curvaW2 (a b : F) : WeierstrassCurve.Affine F :=
  ⟨1, a, 0, 0, b⟩

theorem curvaW2_ecuacion (a b x y : F) :
    (curvaW2 a b).Equation x y ↔ contieneF2m a b x y := by
  rw [WeierstrassCurve.Affine.equation_iff]
  unfold curvaW2 contieneF2m
  constructor <;> intro h <;> linear_combination h

theorem curvaW2_delta (a b : F) (h2 : (2 : F) = 0) : (curvaW2 a b).Δ = b := by
  unfold curvaW2
  rw [WeierstrassCurve.Δ, WeierstrassCurve.b₂, WeierstrassCurve.b₄,
    WeierstrassCurve.b₆, WeierstrassCurve.b₈]
  show -(1 ^ 2 + 4 * a) ^ 2 * (1 ^ 2 * b + 4 * a * b - 1 * 0 * 0 + a * 0 ^ 2 - 0 ^ 2) -
      8 * (2 * 0 + 1 * 0) ^ 3 - 27 * (0 ^ 2 + 4 * b) ^ 2 +
      9 * (1 ^ 2 + 4 * a) * (2 * 0 + 1 * 0) * (0 ^ 2 + 4 * b) = b
  linear_combination (-b - 6 * a * b - 24 * a ^ 2 * b - 32 * a ^ 3 * b - 216 * b ^ 2) * h2

/-- In characteristic 2, the Mathlib negation `-y - x` is the source's
`x + y`. -/
theorem curvaW2_negY (a b x y : F) (h2 : (2 : F) = 0) :
    (curvaW2 a b).negY x y = x + y := by
  show -y - 1 * x - 0 = x + y
  linear_combination (-x - y) * h2

/-- Projection from Mathlib's point type to the embedded point type. -/
def proyF2m {a b : F} : (curvaW2 a b).Point → Punto F
  | .zero => none
  | @WeierstrassCurve.Affine.Point.some _ _ _ x y _ => some (x, y)

theorem enCurvaF2m_proyF2m {a b : F} (P : (curvaW2 a b).Point) :
    enCurvaF2m a b (proyF2m P) := by
  cases P with
  | zero => trivial
  | @some x y h =>
    exact (curvaW2_ecuacion a b x y).mp h.1

theorem existe_levantamientoF2m {a b : F} (h2 : (2 : F) = 0) (hb : b ≠ 0)
    (P : Punto F) (hP : enCurvaF2m a b P) :
    ∃ Pm : (curvaW2 a b).Point, proyF2m Pm = P := by
  cases P with
  | none => exact ⟨.zero, rfl⟩
  | some par =>
    have hΔ : (curvaW2 a b).Δ ≠ 0 := by rw [curvaW2_delta a b h2]; exact hb
    exact ⟨.some (WeierstrassCurve.Affine.nonsingular_of_Δ_ne_zero _
      ((curvaW2_ecuacion a b par.1 par.2).mpr hP) hΔ), rfl⟩

theorem proyF2m_neg {a b : F} (h2 : (2 : F) = 0) (P : (curvaW2 a b).Point) :
    proyF2m (-P) = negF2m (proyF2m P) := by
  cases P with
  | zero => rfl
  | @some x y h =>
    show some (x, (curvaW2 a b).negY x y) = some (x, x + y)
    rw [curvaW2_negY a b x y h2]

/-- The central correspondence for the characteristic-2 curve. -/
theorem proyF2m_suma {a b : F} (h2 : (2 : F) = 0) (P Q : (curvaW2 a b).Point) :
    proyF2m (P + Q) = sumaF2m a (proyF2m P) (proyF2m Q) := by
  cases P with
  | zero =>
    have h0 : (WeierstrassCurve.Affine.Point.zero : (curvaW2 a b).Point) + Q = Q := by
      rw [WeierstrassCurve.Affine.Point.zero_def, zero_add]
    rw [h0]
    rfl
  | @some x₁ y₁ h₁ =>
    cases Q with
    | zero =>
      have h0 : WeierstrassCurve.Affine.Point.some h₁ +
          (WeierstrassCurve.Affine.Point.zero : (curvaW2 a b).Point) =
          WeierstrassCurve.Affine.Point.some h₁ := by
        rw [WeierstrassCurve.Affine.Point.zero_def, add_zero]
      rw [h0]
      rfl
    | @some x₂ y₂ hq₂ =>
      have e₁ : y₁ ^ 2 + x₁ * y₁ = x₁ ^ 3 + a * x₁ ^ 2 + b := (curvaW2_ecuacion a b x₁ y₁).mp h₁.1
      have e₂ : y₂ ^ 2 + x₂ * y₂ = x₂ ^ 3 + a * x₂ ^ 2 + b := (curvaW2_ecuacion a b x₂ y₂).mp hq₂.1
      by_cases hx : x₁ = x₂
      · have hnegY : (curvaW2 a b).negY x₂ y₂ = x₂ + y₂ := curvaW2_negY a b x₂ y₂ h2
        by_cases hy : y₁ = (curvaW2 a b).negY x₂ y₂
        · rw [WeierstrassCurve.Affine.Point.add_of_Y_eq hx hy]
          have hyy : y₁ = x₂ + y₂ := by rw [hy, hnegY]
          subst hx
          show (none : Punto F) = sumaF2m a (some (x₁, y₁)) (some (x₁, y₂))
          by_cases hyeq : y₁ = y₂
          · have hx0 : x₁ = 0 := by
              rw [hyeq] at hyy
              linear_combination -hyy
            simp [sumaF2m, hyeq, hx0]
          · simp [sumaF2m, hyeq]
        · -- tangent (doubling) case
          have hyy : y₁ = y₂ := by
            have hneq : y₁ ≠ x₂ + y₂ := fun h => hy (by rw [hnegY, h])
            have hcuad : (y₁ - y₂) * (y₁ + y₂ + x₂) = 0 := by
              rw [hx] at e₁
              linear_combination e₁ - e₂
            rcases mul_eq_zero.mp hcuad with h | h
            · exact sub_eq_zero.mp h
            · exact absurd (by linear_combination h + (-x₂ - y₂) * h2) hneq
          subst hx
          subst hyy
          have hx0 : x₁ ≠ 0 := by
            intro h0
            exact hy (by rw [hnegY, h0, zero_add])
          rw [WeierstrassCurve.Affine.Point.add_of_Y_ne hy]
          have hL : (curvaW2 a b).slope x₁ x₁ y₁ y₁ = x₁ + y₁ / x₁ := by
            rw [WeierstrassCurve.Affine.slope_of_Y_ne rfl hy]
            have hden : y₁ - (curvaW2 a b).negY x₁ y₁ = x₁ := by
              rw [curvaW2_negY a b x₁ y₁ h2]
              linear_combination (-x₁) * h2
            have hnum : 3 * x₁ ^ 2 + 2 * (curvaW2 a b).a₂ * x₁ + (curvaW2 a b).a₄ -
                (curvaW2 a b).a₁ * y₁ = x₁ ^ 2 + y₁ := by
              show 3 * x₁ ^ 2 + 2 * a * x₁ + 0 - 1 * y₁ = x₁ ^ 2 + y₁
              linear_combination (x₁ ^ 2 + a * x₁ - y₁) * h2
            rw [hden, hnum]
            field_simp
            ring
          show some ((curvaW2 a b).addX x₁ x₁ ((curvaW2 a b).slope x₁ x₁ y₁ y₁),
              (curvaW2 a b).addY x₁ x₁ y₁ ((curvaW2 a b).slope x₁ x₁ y₁ y₁)) = _
          rw [hL]
          simp only [proyF2m, sumaF2m, if_pos (And.intro rfl rfl), if_neg hx0]
          set m := x₁ + y₁ / x₁ with hm
          have hmx : m * x₁ = x₁ ^ 2 + y₁ := by
            rw [hm]
            field_simp
            ring
          unfold WeierstrassCurve.Affine.addY WeierstrassCurve.Affine.negAddY
            WeierstrassCurve.Affine.addX WeierstrassCurve.Affine.negY
          show some (m ^ 2 + 1 * m - a - x₁ - x₁,
              -(m * (m ^ 2 + 1 * m - a - x₁ - x₁ - x₁) + y₁) - 1 * (m ^ 2 + 1 * m - a - x₁ - x₁) - 0) = _
          refine congrArg some (Prod.ext ?_ ?_)
          · show m ^ 2 + 1 * m - a - x₁ - x₁ = m ^ 2 + m + a
            linear_combination (-a - x₁) * h2
          · show -(m * (m ^ 2 + 1 * m - a - x₁ - x₁ - x₁) + y₁) - 1 * (m ^ 2 + 1 * m - a - x₁ - x₁) - 0 =
              x₁ ^ 2 + (m + 1) * (m ^ 2 + m + a)
            linear_combination hmx + (-(m + 1) * (m ^ 2 + m - x₁)) * h2
      · -- chord case
        rw [WeierstrassCurve.Affine.Point.add_of_X_ne hx]
        have hL : (curvaW2 a b).slope x₁ x₂ y₁ y₂ = (y₁ + y₂) / (x₁ + x₂) := by
          rw [WeierstrassCurve.Affine.slope_of_X_ne hx]
          have hnum : y₁ - y₂ = y₁ + y₂ := by linear_combination (-y₂) * h2
          have hden : x₁ - x₂ = x₁ + x₂ := by linear_combination (-x₂) * h2
          rw [hnum, hden]
        show some ((curvaW2 a b).addX x₁ x₂ ((curvaW2 a b).slope x₁ x₂ y₁ y₂),
            (curvaW2 a b).addY x₁ x₂ y₁ ((curvaW2 a b).slope x₁ x₂ y₁ y₂)) = _
        rw [hL]
        simp only [proyF2m, sumaF2m, if_neg (fun h : x₁ = x₂ ∧ y₁ = y₂ => hx h.1), if_neg hx]
        set m := (y₁ + y₂) / (x₁ + x₂) with hm
        unfold WeierstrassCurve.Affine.addY WeierstrassCurve.Affine.negAddY
          WeierstrassCurve.Affine.addX WeierstrassCurve.Affine.negY
        show some (m ^ 2 + 1 * m - a - x₁ - x₂,
            -(m * (m ^ 2 + 1 * m - a - x₁ - x₂ - x₁) + y₁) - 1 * (m ^ 2 + 1 * m - a - x₁ - x₂) - 0) = _
        refine congrArg some (Prod.ext ?_ ?_)
        · show m ^ 2 + 1 * m - a - x₁ - x₂ = m ^ 2 + m + x₁ + x₂ + a
          linear_combination (-a - x₁ - x₂) * h2
        · show -(m * (m ^ 2 + 1 * m - a - x₁ - x₂ - x₁) + y₁) - 1 * (m ^ 2 + 1 * m - a - x₁ - x₂) - 0 =
            m * (x₁ + (m ^ 2 + m + x₁ + x₂ + a)) + (m ^ 2 + m + x₁ + x₂ + a) + y₁
          linear_combination (-(m + 1) * (m ^ 2 + m) - y₁) * h2

theorem foldl_dup_proy2 {a b : F} (h2 : (2 : F) = 0) (P : (curvaW2 a b).Point)
    (l : List Bool) (Q : (curvaW2 a b).Point) :
    l.foldl (fun R ki => if ki then sumaF2m a (sumaF2m a R R) (proyF2m P) else sumaF2m a R R)
        (proyF2m Q) =
      proyF2m (l.foldl (fun R ki => if ki then (R + R) + P else R + R) Q) := by
  induction l generalizing Q with
  | nil => rfl
  | cons ki l ih =>
    show l.foldl _ (if ki then sumaF2m a (sumaF2m a (proyF2m Q) (proyF2m Q)) (proyF2m P)
        else sumaF2m a (proyF2m Q) (proyF2m Q)) = _
    have hpaso : (if ki then sumaF2m a (sumaF2m a (proyF2m Q) (proyF2m Q)) (proyF2m P)
        else sumaF2m a (proyF2m Q) (proyF2m Q)) =
        proyF2m (if ki then (Q + Q) + P else Q + Q) := by
      cases ki <;> simp [proyF2m_suma h2]
    rw [hpaso, ih]
    rfl

theorem proyF2m_cero {a b : F} : proyF2m (0 : (curvaW2 a b).Point) = none := rfl

theorem multiplicacionPorDuplicacionF2m_proy {a b : F} (h2 : (2 : F) = 0)
    (P : (curvaW2 a b).Point) (k : ℕ) :
    multiplicacionPorDuplicacionF2m a (proyF2m P) k = proyF2m (k • P) := by
  unfold multiplicacionPorDuplicacionF2m
  have h0 := foldl_dup_proy2 h2 P (repBinaria k) 0
  rw [proyF2m_cero] at h0
  rw [h0, foldl_dup_smul, smul_zero, zero_add, valorBits_repBinaria]

theorem multF2m_proy {a b : F} (h2 : (2 : F) = 0) (P : (curvaW2 a b).Point) (e : ℤ) :
    multF2m a (proyF2m P) e = proyF2m (e • P) := by
  cases P with
  | zero =>
    show multF2m a none e = proyF2m (e • (0 : (curvaW2 a b).Point))
    rw [smul_zero]
    rfl
  | @some x y h =>
    have hdef : multF2m a (some (x, y)) e =
        if e < 0 then multiplicacionPorDuplicacionF2m a (negF2m (some (x, y))) (-e).toNat
        else multiplicacionPorDuplicacionF2m a (some (x, y)) e.toNat := rfl
    show multF2m a (some (x, y)) e = _
    rw [hdef]
    by_cases he : e < 0
    · rw [if_pos he]
      have h1 : negF2m (some (x, y) : Punto F) =
          proyF2m (-WeierstrassCurve.Affine.Point.some h) := by
        rw [proyF2m_neg h2]
        rfl
      rw [h1, multiplicacionPorDuplicacionF2m_proy h2]
      congr 1
      rw [← natCast_zsmul, Int.toNat_of_nonneg (by omega), neg_smul, smul_neg, neg_neg]
    · rw [if_neg he]
      have hneg : (some (x, y) : Punto F) = proyF2m (WeierstrassCurve.Affine.Point.some h) := rfl
      rw [hneg, multiplicacionPorDuplicacionF2m_proy h2]
      congr 1
      rw [← natCast_zsmul, Int.toNat_of_nonneg (by omega)]

theorem sumaRepetidaF2m_proy {a b : F} (h2 : (2 : F) = 0) (P : (curvaW2 a b).Point) (n : ℕ) :
    sumaRepetidaF2m a (proyF2m P) n = proyF2m (n • P) := by
  induction n with
  | zero =>
    show (none : Punto F) = proyF2m (0 • P)
    rw [zero_smul, proyF2m_cero]
  | succ n ih =>
    show sumaF2m a (sumaRepetidaF2m a (proyF2m P) n) (proyF2m P) = _
    rw [ih, ← proyF2m_suma h2, succ_nsmul]

end CurvaF2m

/-- `5` is prime (the witnesses below use the field `F₅ = ZMod 5`). -/
instance : Fact (Nat.Prime 5) := ⟨by norm_num⟩

/-! ## `curva_eliptica_sobre_Q`

The rational-curve point class `PuntoQRacional` uses exact `Fraction`
arithmetic (modelled by `ℚ`); its `__add__` and `__neg__` are textually the
same short-Weierstrass formulas as `PuntoFqRacional`'s, so they are the
instantiation of the field-generic embeddings at `F = ℚ`.  Its `__mul__`,
however, is the naive repeated-addition loop

```
producto = PuntoQRacional.elemento_neutro()
for i in range(entero):
    producto += self
return producto
```

and `range(entero)` is empty for `entero ≤ 0`. -/

/-- `PuntoQRacional.__add__`. -/
def sumaQ (a : ℚ) : Punto ℚ → Punto ℚ → Punto ℚ :=
  sumaFq a

/-- `PuntoQRacional.__mul__`: naive repeated addition, `entero` iterations
(none when `entero < 0`, since `range` of a negative bound is empty). -/
def multQ (a : ℚ) (P : Punto ℚ) (entero : ℤ) : Punto ℚ :=
  (List.range entero.toNat).foldl (fun producto _ => sumaQ a producto P) none

/-- C9.  On the curve over `ℚ`, multiplying any point by a negative integer
returns the neutral element: the repeated-addition loop runs zero times. -/
theorem multQ_negativo_es_neutro (a : ℚ) (P : Punto ℚ) (k : ℤ) (hk : k < 0) :
    multQ a P k = none := by
  unfold multQ
  rw [Int.toNat_of_nonpos (le_of_lt hk)]
  rfl

/-- Witness for C9 at the curve `y² = x³ − 18·x − 72`, the point `(6, 6)` of
the source's doctest, and `k = −1`. -/
theorem multQ_negativo_es_neutro_testigo :
    (-1 : ℤ) < 0 ∧ multQ (-18) (some (6, 6)) (-1) = none :=
  ⟨by decide, multQ_negativo_es_neutro (-18) (some (6, 6)) (-1) (by decide)⟩

/-! ## Claim theorems for the curve group operations -/

/-- C2.  On both finite-field curve forms, for every point `P` of the curve
and every integer `e` (negative, zero or positive), the scalar product
computed by left-to-right double-and-add over the binary expansion of `|e|`
equals the repeated group addition of `|e|` copies of `sign(e)·P`; and the
neutral element multiplied by any integer is the neutral element. -/
theorem multiplicacion_es_suma_repetida :
    (∀ (F : Type) (_ : Field F) (_ : DecidableEq F) (a b : F) (P : Punto F) (e : ℤ),
      (2 : F) ≠ 0 → (3 : F) ≠ 0 → 4 * a ^ 3 + 27 * b ^ 2 ≠ 0 → enCurvaFq a b P →
        multFq a P e = sumaRepetidaFq a (if e < 0 then negFq P else P) e.natAbs) ∧
    (∀ (F : Type) (_ : Field F) (_ : DecidableEq F) (a b : F) (P : Punto F) (e : ℤ),
      (2 : F) = 0 → b ≠ 0 → enCurvaF2m a b P →
        multF2m a P e = sumaRepetidaF2m a (if e < 0 then negF2m P else P) e.natAbs) ∧
    (∀ (F : Type) (_ : Field F) (_ : DecidableEq F) (a : F) (e : ℤ),
      multFq a (none : Punto F) e = none ∧ multF2m a (none : Punto F) e = none) := by
  refine ⟨?_, ?_, ?_⟩
  · intro F _ _ a b P e h2 h3 hd hP
    obtain ⟨Pm, hPm⟩ := existe_levantamientoFq h2 hd P hP
    rw [← hPm, multFq_proy h2]
    by_cases he : e < 0
    · rw [if_pos he, ← proyFq_neg, sumaRepetidaFq_proy h2]
      congr 1
      have hnat : (e.natAbs : ℤ) = -e := by omega
      rw [← natCast_zsmul, hnat, neg_smul, smul_neg, neg_neg]
    · rw [if_neg he, sumaRepetidaFq_proy h2]
      congr 1
      have hnat : (e.natAbs : ℤ) = e := by omega
      rw [← natCast_zsmul, hnat]
  · intro F _ _ a b P e h2 hb hP
    obtain ⟨Pm, hPm⟩ := existe_levantamientoF2m h2 hb P hP
    rw [← hPm, multF2m_proy h2]
    by_cases he : e < 0
    · rw [if_pos he, ← proyF2m_neg h2, sumaRepetidaF2m_proy h2]
      congr 1
      have hnat : (e.natAbs : ℤ) = -e := by omega
      rw [← natCast_zsmul, hnat, neg_smul, smul_neg, neg_neg]
    · rw [if_neg he, sumaRepetidaF2m_proy h2]
      congr 1
      have hnat : (e.natAbs : ℤ) = e := by omega
      rw [← natCast_zsmul, hnat]
  · intro F _ _ a e
    exact ⟨rfl, rfl⟩

/-- Witness for C2: the curve `y² = x³ + x + 1` over `F₅` with `P = (0, 1)`
and `e = −3`, and the curve `y² + x·y = x³ + 1` over `F₂` with `P = (0, 1)`
and `e = 3`. -/
theorem multiplicacion_es_suma_repetida_testigo :
    multFq (1 : ZMod 5) (some (0, 1)) (-3) =
        sumaRepetidaFq (1 : ZMod 5) (if (-3 : ℤ) < 0 then negFq (some (0, 1)) else some (0, 1))
          (-3 : ℤ).natAbs ∧
      multF2m (0 : ZMod 2) (some (0, 1)) 3 =
        sumaRepetidaF2m (0 : ZMod 2) (if (3 : ℤ) < 0 then negF2m (some (0, 1)) else some (0, 1))
          (3 : ℤ).natAbs :=
  ⟨multiplicacion_es_suma_repetida.1 (ZMod 5) inferInstance inferInstance 1 1 (some (0, 1)) (-3)
      (by decide) (by decide) (by decide) (by decide),
   multiplicacion_es_suma_repetida.2.1 (ZMod 2) inferInstance inferInstance 0 1 (some (0, 1)) 3
      (by decide) (by decide) (by decide)⟩

/-- C3.  On a Weierstrass curve over a field of characteristic ≠ 2, 3 with
nonzero discriminant, negation, addition, subtraction and scalar
multiplication of points of the curve produce points of the curve, and the
checked operations (which run the constructor's membership test) never raise
the constructor's domain error. -/
theorem operaciones_grupo_preservan_curva :
    ∀ (F : Type) (_ : Field F) (_ : DecidableEq F) (a b : F) (P Q : Punto F) (e : ℤ),
      (2 : F) ≠ 0 → (3 : F) ≠ 0 → 4 * a ^ 3 + 27 * b ^ 2 ≠ 0 →
      enCurvaFq a b P → enCurvaFq a b Q →
        (negChkFq a b P = some (negFq P) ∧ enCurvaFq a b (negFq P)) ∧
        (sumaChkFq a b P Q = some (sumaFq a P Q) ∧ enCurvaFq a b (sumaFq a P Q)) ∧
        (restaChkFq a b P Q = some (sumaFq a P (negFq Q)) ∧
          enCurvaFq a b (sumaFq a P (negFq Q))) ∧
        (multChkFq a b P e = some (multFq a P e) ∧ enCurvaFq a b (multFq a P e)) := by
  intro F _ _ a b P Q e h2 h3 hd hP hQ
  have hnQ : enCurvaFq a b (negFq Q) := cerraduraNegFq Q hQ
  refine ⟨⟨negChkFq_eq P hP, cerraduraNegFq P hP⟩,
    ⟨sumaChkFq_eq h2 hd P Q hP hQ, cerraduraSumaFq h2 hd P Q hP hQ⟩,
    ⟨restaChkFq_eq h2 hd P Q hP hQ, cerraduraSumaFq h2 hd P (negFq Q) hP hnQ⟩,
    ⟨multChkFq_eq h2 hd P hP e, cerraduraMultFq h2 hd P hP e⟩⟩

/-- Witness for C3: the curve `y² = x³ + x + 1` over `F₅` with points
`(0, 1)` and `(2, 1)` and scalar `−2`. -/
theorem operaciones_grupo_preservan_curva_testigo :
    sumaChkFq (1 : ZMod 5) 1 (some (0, 1)) (some (2, 1)) =
        some (sumaFq (1 : ZMod 5) (some (0, 1)) (some (2, 1))) ∧
      enCurvaFq (1 : ZMod 5) 1 (sumaFq (1 : ZMod 5) (some (0, 1)) (some (2, 1))) :=
  (operaciones_grupo_preservan_curva (ZMod 5) inferInstance inferInstance 1 1
    (some (0, 1)) (some (2, 1)) (-2) (by decide) (by decide) (by decide)
    (by decide) (by decide)).2.1

/-! ## `esquemas_criptograficos.ECDH` -/

/-- `ECDH.calcula_secreto_compartido`: the x-coordinate of
`llave_privada * otra_llave_publica`.  Reading `.x` of the neutral element
raises `AttributeError` in the source, modelled by `none`. -/
def calcula_secreto_compartido {F : Type _} [Field F] [DecidableEq F]
    (a : F) (llave_privada : ℕ) (otra_llave_publica : Punto F) : Option F :=
  (multFq a otra_llave_publica (llave_privada : ℤ)).map Prod.fst

/-- C7.  Two ECDH participants over the same curve, generator and order, with
private scalars `dA`, `dB` and public keys `QA = dA·G`, `QB = dB·G`, compute
the same shared secret. -/
theorem ecdh_secretos_coinciden :
    ∀ (F : Type) (_ : Field F) (_ : DecidableEq F) (a b : F) (G : Punto F) (dA dB : ℕ),
      (2 : F) ≠ 0 → (3 : F) ≠ 0 → 4 * a ^ 3 + 27 * b ^ 2 ≠ 0 → enCurvaFq a b G →
        calcula_secreto_compartido a dA (multFq a G (dB : ℤ)) =
          calcula_secreto_compartido a dB (multFq a G (dA : ℤ)) := by
  intro F _ _ a b G dA dB h2 h3 hd hG
  obtain ⟨Gm, hGm⟩ := existe_levantamientoFq h2 hd G hG
  unfold calcula_secreto_compartido
  rw [← hGm, multFq_proy h2, multFq_proy h2, multFq_proy h2, multFq_proy h2]
  have hsm : ((dA : ℤ)) • ((dB : ℤ)) • Gm = ((dB : ℤ)) • ((dA : ℤ)) • Gm := by
    rw [smul_smul, smul_smul, mul_comm]
  rw [hsm]

/-- Witness for C7: the curve `y² = x³ + x + 1` over `F₅`, generator `(0, 1)`,
private keys `2` and `3`. -/
theorem ecdh_secretos_coinciden_testigo :
    calcula_secreto_compartido (1 : ZMod 5) 2 (multFq (1 : ZMod 5) (some (0, 1)) 3) =
      calcula_secreto_compartido (1 : ZMod 5) 3 (multFq (1 : ZMod 5) (some (0, 1)) 2) :=
  ecdh_secretos_coinciden (ZMod 5) inferInstance inferInstance 1 1 (some (0, 1)) 2 3
    (by decide) (by decide) (by decide) (by decide)

/-! ## `esquemas_criptograficos.ECDSA`: the hash value `e`

Both `ECDSA.firma` and `ECDSA.verifica` compute

```
hash_mensaje = hashlib.sha1(bytes(m, 'utf-8')).digest()
e = int.from_bytes(hash_mensaje[:n.bit_length()], byteorder='big')
```

The SHA-1 provider is external to the repository, so the digest is a
parameter (a list of byte values).  Note the slice takes the first
`n.bit_length()` **bytes** of the digest. -/

/-- Python's `int.bit_length()` for a non-negative integer. -/
def longitudBits (n : ℕ) : ℕ :=
  if n = 0 then 0 else Nat.log2 n + 1

/-- Python's `int.from_bytes(bs, byteorder='big')`. -/
def desdeBytesBE (bs : List ℕ) : ℕ :=
  bs.foldl (fun acc byte => 256 * acc + byte) 0

/-- The hash value `e` computed by `ECDSA.firma` and `ECDSA.verifica`:
the first `n.bit_length()` bytes of the digest, read big-endian. -/
def calculaE (digest : List ℕ) (n : ℕ) : ℕ :=
  desdeBytesBE (digest.take (longitudBits n))

/-- The hash value as the specification words it: the first
`⌈bitlen(n)/8⌉` bytes of the digest, read big-endian. -/
def calculaEEspecificado (digest : List ℕ) (n : ℕ) : ℕ :=
  desdeBytesBE (digest.take ((longitudBits n + 7) / 8))

/-- The SHA-1 digest of the empty message (`SHA-1("") = da39a3ee…`), as a
concrete byte list. -/
def digestVacio : List ℕ :=
  [0xda, 0x39, 0xa3, 0xee, 0x5e, 0x6b, 0x4b, 0x0d, 0x32, 0x55,
   0xbf, 0xef, 0x95, 0x60, 0x18, 0x90, 0xaf, 0xd8, 0x07, 0x09]

theorem longitudBits_127 : longitudBits 127 = 7 := by
  norm_num [longitudBits, Nat.log2]

/-- Counterexample to C1 as stated: for the generator order `n = 127` used in
the source's own `ECDSA` docstring and the SHA-1 digest of the empty message,
the code's hash value (first `bitlen(n) = 7` bytes) differs from the claimed
value (first `⌈bitlen(n)/8⌉ = 1` byte). -/
theorem calculaE_contraejemplo :
    calculaE digestVacio 127 ≠ calculaEEspecificado digestVacio 127 := by
  unfold calculaE calculaEEspecificado
  rw [longitudBits_127]
  decide

theorem desdeBytesBE_desde (l : List ℕ) (acc : ℕ) :
    l.foldl (fun acc byte => 256 * acc + byte) acc =
      acc * 256 ^ l.length + desdeBytesBE l := by
  induction l generalizing acc with
  | nil => simp [desdeBytesBE]
  | cons c l ih =>
    show l.foldl _ (256 * acc + c) = _
    rw [ih (256 * acc + c)]
    have hc : desdeBytesBE (c :: l) = c * 256 ^ l.length + desdeBytesBE l := by
      show l.foldl _ (256 * 0 + c) = _
      rw [ih (256 * 0 + c)]
      ring
    rw [hc, List.length_cons]
    ring

/-- `int.from_bytes` is the big-endian weighted sum of the byte values. -/
theorem desdeBytesBE_suma (l : List ℕ) :
    desdeBytesBE l =
      ∑ i in Finset.range l.length, l.getD i 0 * 256 ^ (l.length - 1 - i) := by
  induction l with
  | nil => simp [desdeBytesBE]
  | cons c l ih =>
    have hc : desdeBytesBE (c :: l) = c * 256 ^ l.length + desdeBytesBE l := by
      show l.foldl _ (256 * 0 + c) = _
      rw [desdeBytesBE_desde]
      ring
    rw [hc, ih, List.length_cons, Finset.sum_range_succ']
    have hsum : ∑ i in Finset.range l.length,
        (c :: l).getD (i + 1) 0 * 256 ^ (l.length + 1 - 1 - (i + 1)) =
        ∑ i in Finset.range l.length, l.getD i 0 * 256 ^ (l.length - 1 - i) := by
      refine Finset.sum_congr rfl fun i _ => ?_
      have he : l.length + 1 - 1 - (i + 1) = l.length - 1 - i := by omega
      rw [he]
      rfl
    rw [hsum]
    have h0 : (c :: l).getD 0 0 * 256 ^ (l.length + 1 - 1 - 0) = c * 256 ^ l.length := by
      have he : l.length + 1 - 1 - 0 = l.length := by omega
      rw [he]
      rfl
    rw [h0]
    ring

/-- C1 (amended).  The hash value `e` of `ECDSA.firma`/`ECDSA.verifica` is the
big-endian integer interpretation of the first `bitlen(n)` bytes of the
digest (all of it when `bitlen(n)` is at least the digest length): with
`L = min (bitlen n) (length digest)`, `e = Σ_{i<L} digest[i] · 256^(L−1−i)`. -/
theorem calculaE_correcto (digest : List ℕ) (n : ℕ) :
    calculaE digest n =
      ∑ i in Finset.range (min (longitudBits n) digest.length),
        digest.getD i 0 * 256 ^ (min (longitudBits n) digest.length - 1 - i) := by
  unfold calculaE
  rw [desdeBytesBE_suma, List.length_take]
  refine Finset.sum_congr rfl fun i hi => ?_
  congr 1
  rw [List.getD_eq_getElem?_getD, List.getD_eq_getElem?_getD, List.getElem?_take]
  rw [if_pos]
  exact lt_of_lt_of_le (Finset.mem_range.mp hi) (min_le_left _ _)

/-! ## `ECDSA.verifica`

```
P = self.generador; n = self.orden; Q = llave_publica_firmante; m = mensaje
if not (1 <= r <= n - 1 and 1 <= s <= n - 1):
    return False
e = int.from_bytes(sha1(m)[:n.bit_length()], 'big')
Zn = Zp(n)
w = Zn(s).inverso()
u1 = int(e * w); u2 = int(r * w)
X = u1 * P + u2 * Q
if X.es_elemento_neutro():
    return False
v = Zn(X.x)
return v == r
```

The embedding returns `Option Bool`; `none` models any uncaught exception
(`ZeroDivisionError` from `inverso`, or the point constructor's `ValueError`
inside the scalar multiplications and the addition).  The curve operations
are the checked forms, and the SHA-1 digest is a parameter. -/

/-- `ECDSA.verifica` over the curve `y² = x³ + a·x + b` on `F_p`, with
generator `P`, generator order `n`, message digest `digest`, signature
`(r, s)` and signer public key `Q`. -/
def verifica (p : ℕ) [Fact p.Prime] (a b : ZMod p) (P : Punto (ZMod p)) (n : ℕ)
    (digest : List ℕ) (r s : ℤ) (Q : Punto (ZMod p)) : Option Bool :=
  if ¬ (1 ≤ r ∧ r ≤ (n : ℤ) - 1 ∧ 1 ≤ s ∧ s ≤ (n : ℤ) - 1) then some false
  else
    let e := calculaE digest n
    match inverso n (s : ZMod n) with
    | none => none
    | some w =>
      let u1 := ((e : ZMod n) * w).val
      let u2 := ((r : ZMod n) * w).val
      match multChkFq a b P (u1 : ℤ) with
      | none => none
      | some X1 =>
        match multChkFq a b Q (u2 : ℤ) with
        | none => none
        | some X2 =>
          match sumaChkFq a b X1 X2 with
          | none => none
          | some none => some false
          | some (some (xX, _)) => some (decide ((xX.val : ZMod n) = (r : ZMod n)))

/-- C5.  `verifica` returns `false` whenever `r` or `s` lies outside
`[1, n−1]`, and on a valid curve with prime order `n` and curve points `P`,
`Q` it always returns a boolean — no exception escapes. -/
theorem verifica_nunca_lanza :
    ∀ (p : ℕ) (_ : Fact p.Prime) (a b : ZMod p) (P : Punto (ZMod p)) (n : ℕ)
      (digest : List ℕ) (r s : ℤ) (Q : Punto (ZMod p)),
      (2 : ZMod p) ≠ 0 → (3 : ZMod p) ≠ 0 → 4 * a ^ 3 + 27 * b ^ 2 ≠ 0 →
      n.Prime → enCurvaFq a b P → enCurvaFq a b Q →
      (¬ (1 ≤ r ∧ r ≤ (n : ℤ) - 1 ∧ 1 ≤ s ∧ s ≤ (n : ℤ) - 1) →
        verifica p a b P n digest r s Q = some false) ∧
      (∃ res : Bool, verifica p a b P n digest r s Q = some res) := by
  intro p _ a b P n digest r s Q h2 h3 hd hn hP hQ
  constructor
  · intro hrango
    unfold verifica
    rw [if_pos hrango]
  · by_cases hrango : 1 ≤ r ∧ r ≤ (n : ℤ) - 1 ∧ 1 ≤ s ∧ s ≤ (n : ℤ) - 1
    · have hn2 : 2 ≤ n := hn.two_le
      have hs0 : (s : ZMod n) ≠ 0 := by
        intro h0
        have hdvd : (n : ℤ) ∣ s := (ZMod.intCast_zmod_eq_zero_iff_dvd s n).mp h0
        obtain ⟨c, hc⟩ := hdvd
        obtain ⟨hr1, hr2, hs1, hs2⟩ := hrango
        have hc1 : 1 ≤ c := by nlinarith
        nlinarith
      obtain ⟨w, hw, hmul⟩ := inverso_correcto n hn (s : ZMod n) hs0
      unfold verifica
      rw [if_neg (not_not_intro hrango)]
      obtain ⟨X1, hX1, hX1c⟩ : ∃ X1, multChkFq a b P
          ((((calculaE digest n : ZMod n) * w).val : ℕ) : ℤ) = some X1 ∧
          enCurvaFq a b X1 :=
        ⟨_, multChkFq_eq h2 hd P hP _, cerraduraMultFq h2 hd P hP _⟩
      obtain ⟨X2, hX2, hX2c⟩ : ∃ X2, multChkFq a b Q
          ((((r : ZMod n) * w).val : ℕ) : ℤ) = some X2 ∧ enCurvaFq a b X2 :=
        ⟨_, multChkFq_eq h2 hd Q hQ _, cerraduraMultFq h2 hd Q hQ _⟩
      have hXsum : sumaChkFq a b X1 X2 = some (sumaFq a X1 X2) :=
        sumaChkFq_eq h2 hd X1 X2 hX1c hX2c
      simp only [hw, hX1, hX2, hXsum]
      rcases hX : sumaFq a X1 X2 with _ | ⟨xX, yX⟩
      · exact ⟨false, rfl⟩
      · exact ⟨_, rfl⟩
    · refine ⟨false, ?_⟩
      unfold verifica
      rw [if_pos hrango]

/-- Witness for C5: the curve `y² = x³ + x + 1` over `F₅`, points `(0, 1)`
and `(2, 1)`, order `3`, empty digest, signature `(1, 1)`. -/
theorem verifica_nunca_lanza_testigo :
    ∃ res : Bool, verifica 5 1 1 (some (0, 1)) 3 [] 1 1 (some (2, 1)) = some res :=
  (verifica_nunca_lanza 5 inferInstance 1 1 (some (0, 1)) 3 [] 1 1 (some (2, 1))
    (by decide) (by decide) (by decide) (by norm_num) (by decide) (by decide)).2

/-! ## `aritmetica_elemental.PolinomioZp`

A polynomial over `F_p` is a list of coefficients in ascending order
(`c₀` the constant term), with the last coefficient nonzero unless the
polynomial is the zero polynomial `[0]`.  The constructor trims the input
list to the last nonzero coefficient (keeping one coefficient when all are
zero).  Exceptions are again modelled with `Option`.

For the proofs, a list is interpreted as a Mathlib `Polynomial (ZMod p)`
via `toPoly`. -/

/-- Coefficient lists of `PolinomioZp` over `F_p`, ascending order. -/
abbrev Pol (p : ℕ) := List (ZMod p)

section Polinomios

variable {p : ℕ} [Fact p.Prime]

/-- The constructor's trimming: keep the coefficients up to the last nonzero
one; when there is none, keep the first coefficient only. -/
def recortar (l : Pol p) : Pol p :=
  let r := (l.reverse.dropWhile fun c => decide (c = 0)).reverse
  if r = [] then l.take 1 else r

/-- `PolinomioZp.grado`: `⊥` (the source's `-math.inf`) for the zero
polynomial, else the index of the leading coefficient. -/
def grado (f : Pol p) : WithBot ℕ :=
  if f = [0] then ⊥ else ((f.length - 1 : ℕ) : WithBot ℕ)

/-- `PolinomioZp.coeficiente_lider`: the last coefficient. -/
def lider (f : Pol p) : ZMod p :=
  f.getLastD 0

/-- `PolinomioZp.monomio c d`: the monomial `c·X^d` (built through the
trimming constructor). -/
def monomio (c : ZMod p) (d : ℕ) : Pol p :=
  recortar (List.replicate d 0 ++ [c])

/-- `itertools.zip_longest` with fill value 0, combined with `+`. -/
def zipConCeros : Pol p → Pol p → Pol p
  | [], gs => gs
  | f :: fs, [] => f :: fs
  | f :: fs, g :: gs => (f + g) :: zipConCeros fs gs

/-- `PolinomioZp.__add__`. -/
def sumaPol (f g : Pol p) : Pol p :=
  recortar (zipConCeros f g)

/-- `PolinomioZp.__neg__`. -/
def negPol (f : Pol p) : Pol p :=
  recortar (f.map fun c => -c)

/-- `PolinomioZp.__sub__`: `self + (-q)`. -/
def restaPol (f g : Pol p) : Pol p :=
  sumaPol f (negPol g)

/-- The schoolbook convolution of `PolinomioZp.__mul__`: a list of length
`len(f) + len(g)` whose entry `k` accumulates `f_i·g_j` over `i + j = k`. -/
def convolucion (f g : Pol p) : Pol p :=
  (List.range (f.length + g.length)).map fun k =>
    ∑ i in Finset.range (k + 1), f.getD i 0 * g.getD (k - i) 0

/-- `PolinomioZp.__mul__`. -/
def mulPol (f g : Pol p) : Pol p :=
  if f = [0] ∨ g = [0] then [0] else recortar (convolucion f g)

/-- The long-division loop of `PolinomioZp.__divmod__` (state: quotient and
remainder); the fuel argument is a proof device, chosen large enough that
the loop always exits through its own condition. -/
def bucleDivmod (g : Pol p) : ℕ → Pol p → Pol p → Pol p × Pol p
  | 0, cociente, resto => (cociente, resto)
  | fuel + 1, cociente, resto =>
    if ¬ resto = [0] ∧ grado g ≤ grado resto then
      bucleDivmod g fuel
        (sumaPol cociente (monomio (lider resto / lider g) ((resto.length - 1) - (g.length - 1))))
        (restaPol resto
          (mulPol (monomio (lider resto / lider g) ((resto.length - 1) - (g.length - 1))) g))
    else (cociente, resto)

/-- `PolinomioZp.__divmod__`. -/
def divmodPol (f g : Pol p) : Pol p × Pol p :=
  bucleDivmod g (f.length + 1) [0] f

/-- The Euclidean loop of `alg_euclides_polinomios`; on exit the source sets
`d, s, t = gg, s2, t2` and returns `(s, t, d)`. -/
def bucleEuclidesPol : ℕ → Pol p → Pol p → Pol p → Pol p → Pol p → Pol p →
    Pol p × Pol p × Pol p
  | 0, gg, _, s2, _, t2, _ => (s2, t2, gg)
  | fuel + 1, gg, hh, s2, s1, t2, t1 =>
    if hh = [0] then (s2, t2, gg)
    else
      bucleEuclidesPol fuel hh (divmodPol gg hh).2 s1
        (restaPol s2 (mulPol (divmodPol gg hh).1 s1)) t1
        (restaPol t2 (mulPol (divmodPol gg hh).1 t1))

/-- The loop part of `alg_euclides_polinomios`, before the monic
normalization (the source's value of `(s, t, d)` after the `if/else`). -/
def euclidesPolSinNormalizar (g h : Pol p) : Pol p × Pol p × Pol p :=
  if recortar h = [0] then ([1], [0], recortar g)
  else bucleEuclidesPol ((recortar h).length + 1) (recortar g) (recortar h) [1] [0] [0] [1]

/-- `alg_euclides_polinomios(g, h, p)`: the extended Euclidean algorithm for
polynomials, with the monic normalization of the result; `none` models the
`ZeroDivisionError` that `Zp(p)(…).inverso()` would raise on a zero leading
coefficient. -/
def alg_euclides_polinomios (g h : Pol p) : Option (Pol p × Pol p × Pol p) :=
  if lider (euclidesPolSinNormalizar g h).2.2 = 1 then some (euclidesPolSinNormalizar g h)
  else
    match inverso p (lider (euclidesPolSinNormalizar g h).2.2) with
    | none => none
    | some k =>
      some (mulPol (euclidesPolSinNormalizar g h).1 [k],
        mulPol (euclidesPolSinNormalizar g h).2.1 [k],
        mulPol (euclidesPolSinNormalizar g h).2.2 [k])

/-- Interpretation of a coefficient list as a Mathlib polynomial (proof-side
only; not part of the embedding of the source). -/
noncomputable def toPoly (l : Pol p) : Polynomial (ZMod p) :=
  ∑ i in Finset.range l.length, Polynomial.C (l.getD i 0) * Polynomial.X ^ i

/-- A coefficient list as produced by the `PolinomioZp` constructor:
nonempty, and the last coefficient nonzero unless the list is `[0]`. -/
def EsCanonico (f : Pol p) : Prop :=
  f ≠ [] ∧ (f.getLastD 0 ≠ 0 ∨ f = [0])

theorem getD_de_ceros {l : Pol p} (hz : ∀ x ∈ l, x = 0) (i : ℕ) : l.getD i 0 = 0 := by
  rcases Nat.lt_or_ge i l.length with hi | hi
  · rw [List.getD_eq_getElem l 0 hi]
    exact hz _ (l.getElem_mem hi)
  · exact List.getD_eq_default l 0 hi

theorem cabezaDropWhile {α : Type _} (q : α → Bool) :
    ∀ (l : List α) (x : α) (xs : List α), l.dropWhile q = x :: xs → q x = false := by
  intro l
  induction l with
  | nil => intro x xs h; exact absurd h (by simp)
  | cons a l ih =>
    intro x xs h
    by_cases ha : q a
    · rw [List.dropWhile_cons_of_pos ha] at h
      exact ih x xs h
    · rw [List.dropWhile_cons_of_neg ha] at h
      cases h
      exact Bool.of_not_eq_true ha

theorem descomposicion_recortar (l : Pol p) :
    l = (l.reverse.dropWhile fun c => decide (c = 0)).reverse ++
      (l.reverse.takeWhile fun c => decide (c = 0)).reverse := by
  have h := List.takeWhile_append_dropWhile (fun c => decide (c = 0)) l.reverse
  have h2 := congrArg List.reverse h
  rw [List.reverse_append, List.reverse_reverse] at h2
  exact h2.symm

theorem ceros_takeWhile (l : Pol p) :
    ∀ x ∈ (l.reverse.takeWhile fun c => decide (c = 0)).reverse, x = 0 := by
  intro x hx
  rw [List.mem_reverse] at hx
  have h1 := @List.mem_takeWhile_imp _ (fun c => decide (c = 0)) l.reverse x hx
  simpa using h1

theorem recortar_getD (l : Pol p) (k : ℕ) : (recortar l).getD k 0 = l.getD k 0 := by
  unfold recortar
  by_cases hr : (l.reverse.dropWhile fun c => decide (c = 0)).reverse = []
  · rw [if_pos hr]
    have hz : ∀ x ∈ l, x = 0 := by
      intro x hx
      have h1 : ∀ y ∈ l.reverse, (fun c => decide (c = 0)) y = true := by
        rw [← List.dropWhile_eq_nil_iff]
        simpa using hr
      have h2 : (fun c => decide (c = 0)) x = true := h1 x (List.mem_reverse.mpr hx)
      simpa using h2
    have hz1 : ∀ x ∈ l.take 1, x = 0 := fun x hx => hz x (List.mem_of_mem_take hx)
    rw [getD_de_ceros hz k, getD_de_ceros hz1 k]
  · rw [if_neg hr]
    conv_rhs => rw [descomposicion_recortar l]
    rcases Nat.lt_or_ge k (l.reverse.dropWhile fun c => decide (c = 0)).reverse.length with hk | hk
    · rw [List.getD_append _ _ 0 k hk]
    · rw [List.getD_append_right _ _ 0 k hk, List.getD_eq_default _ 0 hk,
        getD_de_ceros (ceros_takeWhile l)]

theorem recortar_canonico (l : Pol p) (hl : l ≠ []) : EsCanonico (recortar l) := by
  unfold recortar EsCanonico
  by_cases hr : (l.reverse.dropWhile fun c => decide (c = 0)).reverse = []
  · rw [if_pos hr]
    have hz : ∀ x ∈ l, x = 0 := by
      intro x hx
      have h1 : ∀ y ∈ l.reverse, (fun c => decide (c = 0)) y = true := by
        rw [← List.dropWhile_eq_nil_iff]
        simpa using hr
      have h2 : (fun c => decide (c = 0)) x = true := h1 x (List.mem_reverse.mpr hx)
      simpa using h2
    match l, hl with
    | a :: l, _ =>
      have ha : a = 0 := hz a (List.mem_cons_self a l)
      subst ha
      exact ⟨by simp, Or.inr rfl⟩
  · rw [if_neg hr]
    refine ⟨hr, Or.inl ?_⟩
    have hrr : l.reverse.dropWhile (fun c => decide (c = 0)) ≠ [] := by
      intro h
      exact hr (by rw [h]; rfl)
    match hd : l.reverse.dropWhile (fun c => decide (c = 0)), hrr with
    | x :: xs, _ =>
      have hx : decide (x = 0) = false := cabezaDropWhile _ l.reverse x xs hd
      have hlast : (x :: xs).reverse.getLastD 0 = x := by
        rw [List.reverse_cons, List.getLastD_concat]
      rw [hlast]
      exact of_decide_eq_false hx

theorem toPoly_coeff (l : Pol p) (k : ℕ) : (toPoly l).coeff k = l.getD k 0 := by
  unfold toPoly
  rw [Polynomial.finset_sum_coeff]
  simp only [Polynomial.coeff_C_mul, Polynomial.coeff_X_pow]
  by_cases hk : k < l.length
  · rw [Finset.sum_eq_single_of_mem k (Finset.mem_range.mpr hk)]
    · simp
    · intro b _ hb
      simp [Ne.symm hb]
  · rw [Finset.sum_eq_zero, eq_comm]
    · exact List.getD_eq_default l 0 (by omega)
    · intro b hb
      have hbk : ¬ (k = b) := by
        have := Finset.mem_range.mp hb
        omega
      simp [hbk]

theorem toPoly_recortar (l : Pol p) : toPoly (recortar l) = toPoly l := by
  ext k
  rw [toPoly_coeff, toPoly_coeff, recortar_getD]

theorem toPoly_cero : toPoly ([0] : Pol p) = 0 := by
  unfold toPoly
  simp

theorem toPoly_const (c : ZMod p) : toPoly [c] = Polynomial.C c := by
  unfold toPoly
  simp

theorem zipConCeros_getD (f : Pol p) :
    ∀ (g : Pol p) (k : ℕ), (zipConCeros f g).getD k 0 = f.getD k 0 + g.getD k 0 := by
  induction f with
  | nil =>
    intro g k
    show g.getD k 0 = ([] : Pol p).getD k 0 + g.getD k 0
    simp
  | cons a f ih =>
    intro g k
    cases g with
    | nil => show (a :: f).getD k 0 = _ + ([] : Pol p).getD k 0; simp
    | cons c g =>
      show ((a + c) :: zipConCeros f g).getD k 0 = _
      cases k with
      | zero => simp
      | succ k =>
        show (zipConCeros f g).getD k 0 = ((a :: f).getD (k + 1) 0) + ((c :: g).getD (k + 1) 0)
        rw [ih g k]
        rfl

theorem toPoly_sumaPol (f g : Pol p) : toPoly (sumaPol f g) = toPoly f + toPoly g := by
  ext k
  unfold sumaPol
  rw [toPoly_coeff, recortar_getD, zipConCeros_getD, Polynomial.coeff_add,
    toPoly_coeff, toPoly_coeff]

theorem toPoly_negPol (f : Pol p) : toPoly (negPol f) = -toPoly f := by
  ext k
  unfold negPol
  rw [toPoly_coeff, recortar_getD, Polynomial.coeff_neg, toPoly_coeff]
  rcases Nat.lt_or_ge k f.length with hk | hk
  · rw [List.getD_eq_getElem _ 0 (by simpa using hk), List.getD_eq_getElem _ 0 hk]
    simp
  · rw [List.getD_eq_default _ 0 (by simpa using hk), List.getD_eq_default _ 0 hk]
    simp

theorem toPoly_restaPol (f g : Pol p) : toPoly (restaPol f g) = toPoly f - toPoly g := by
  unfold restaPol
  rw [toPoly_sumaPol, toPoly_negPol]
  ring

theorem convolucion_getD (f g : Pol p) (k : ℕ) :
    (convolucion f g).getD k 0 =
      ∑ i in Finset.range (k + 1), f.getD i 0 * g.getD (k - i) 0 := by
  unfold convolucion
  rcases Nat.lt_or_ge k (f.length + g.length) with hk | hk
  · rw [List.getD_eq_getElem _ 0 (by simpa using hk)]
    simp
  · rw [List.getD_eq_default _ 0 (by simpa using hk)]
    rw [eq_comm]
    refine Finset.sum_eq_zero fun i hi => ?_
    rcases Nat.lt_or_ge i f.length with hif | hif
    · have : g.length ≤ k - i := by omega
      rw [List.getD_eq_default g 0 this, mul_zero]
    · rw [List.getD_eq_default f 0 hif, zero_mul]

theorem toPoly_mulPol (f g : Pol p) : toPoly (mulPol f g) = toPoly f * toPoly g := by
  unfold mulPol
  by_cases hz : f = [0] ∨ g = [0]
  · rw [if_pos hz]
    rcases hz with h | h <;> subst h <;> rw [toPoly_cero] <;> simp [toPoly_cero]
  · rw [if_neg hz]
    ext k
    rw [toPoly_coeff, recortar_getD, convolucion_getD, Polynomial.coeff_mul,
      Finset.Nat.sum_antidiagonal_eq_sum_range_succ_mk]
    refine Finset.sum_congr rfl fun i _ => ?_
    rw [toPoly_coeff, toPoly_coeff]

theorem toPoly_monomio (c : ZMod p) (d : ℕ) :
    toPoly (monomio c d) = Polynomial.C c * Polynomial.X ^ d := by
  ext k
  unfold monomio
  rw [toPoly_coeff, recortar_getD, Polynomial.coeff_C_mul, Polynomial.coeff_X_pow]
  rcases lt_trichotomy k d with hk | hk | hk
  · rw [List.getD_append _ _ 0 k (by simpa using hk)]
    have hz : (List.replicate d (0 : ZMod p)).getD k 0 = 0 := getD_de_ceros (by simp) k
    rw [hz, if_neg (by omega), mul_zero]
  · subst hk
    rw [List.getD_append_right _ _ 0 k (by simp)]
    simp
  · rw [List.getD_eq_default _ 0 (by simp; omega), if_neg (by omega), mul_zero]

theorem getLastD_como_getD (f : Pol p) (hf : f ≠ []) :
    f.getLastD 0 = f.getD (f.length - 1) 0 := by
  rw [List.getLastD_eq_getLast? , List.getLast?_eq_getElem?]
  rw [List.getD_eq_getElem?_getD]

theorem toPoly_eq_cero_iff (f : Pol p) (hf : EsCanonico f) :
    toPoly f = 0 ↔ f = [0] := by
  constructor
  · intro h
    rcases hf.2 with hlast | h0
    · exfalso
      apply hlast
      have hc := toPoly_coeff f (f.length - 1)
      rw [h, Polynomial.coeff_zero] at hc
      rw [getLastD_como_getD f hf.1, ← hc]
    · exact h0
  · intro h
    rw [h, toPoly_cero]

theorem grado_toPoly (f : Pol p) (hf : EsCanonico f) :
    (toPoly f).degree = grado f := by
  unfold grado
  by_cases h0 : f = [0]
  · rw [if_pos h0, h0, toPoly_cero, Polynomial.degree_zero]
  · rw [if_neg h0]
    have hlast : f.getLastD 0 ≠ 0 := hf.2.resolve_right h0
    have hlen : 1 ≤ f.length := by
      cases f with
      | nil => exact absurd rfl hf.1
      | cons a l => simp
    refine le_antisymm ?_ ?_
    · refine (Polynomial.degree_le_iff_coeff_zero _ _).mpr fun m hm => ?_
      rw [toPoly_coeff]
      refine List.getD_eq_default f 0 ?_
      by_contra hcon
      push_neg at hcon
      have : (m : WithBot ℕ) ≤ ((f.length - 1 : ℕ) : WithBot ℕ) := by
        exact_mod_cast WithBot.coe_le_coe.mpr (by omega)
      exact absurd hm (not_lt.mpr this)
    · refine Polynomial.le_degree_of_ne_zero ?_
      rw [toPoly_coeff]
      rw [← getLastD_como_getD f hf.1]
      exact hlast

theorem leadingCoeff_toPoly (f : Pol p) (hf : EsCanonico f) :
    (toPoly f).leadingCoeff = lider f := by
  by_cases h0 : f = [0]
  · rw [h0, toPoly_cero]
    rfl
  · have hdeg := grado_toPoly f hf
    rw [grado, if_neg h0] at hdeg
    have hnat : (toPoly f).natDegree = f.length - 1 :=
      Polynomial.natDegree_eq_of_degree_eq_some hdeg
    rw [Polynomial.leadingCoeff, hnat, toPoly_coeff, lider, getLastD_como_getD f hf.1]

theorem canon_cero : EsCanonico ([0] : Pol p) :=
  ⟨by simp, Or.inr rfl⟩

theorem canon_uno : EsCanonico ([1] : Pol p) := by
  refine ⟨by simp, Or.inl ?_⟩
  show (1 : ZMod p) ≠ 0
  exact one_ne_zero

theorem zipConCeros_ne_nil (f g : Pol p) (hf : f ≠ []) : zipConCeros f g ≠ [] := by
  cases f with
  | nil => exact absurd rfl hf
  | cons a fs =>
    cases g with
    | nil => simpa [zipConCeros] using hf
    | cons c gs => simp [zipConCeros]

theorem sumaPol_canonico (f g : Pol p) (hf : f ≠ []) : EsCanonico (sumaPol f g) :=
  recortar_canonico _ (zipConCeros_ne_nil f g hf)

theorem negPol_canonico (f : Pol p) (hf : f ≠ []) : EsCanonico (negPol f) :=
  recortar_canonico _ (by simpa using hf)

theorem restaPol_canonico (f g : Pol p) (hf : f ≠ []) : EsCanonico (restaPol f g) :=
  sumaPol_canonico f (negPol g) hf

theorem mulPol_canonico (f g : Pol p) (hf : f ≠ []) : EsCanonico (mulPol f g) := by
  unfold mulPol
  by_cases hz : f = [0] ∨ g = [0]
  · rw [if_pos hz]; exact canon_cero
  · rw [if_neg hz]
    refine recortar_canonico _ ?_
    unfold convolucion
    intro hcon
    have hlen := congrArg List.length hcon
    simp at hlen
    exact hf hlen.1

theorem monomio_ne_nil (c : ZMod p) (d : ℕ) : monomio c d ≠ [] :=
  (recortar_canonico _ (by simp)).1

theorem lider_no_cero (f : Pol p) (hf : EsCanonico f) (h0 : f ≠ [0]) : lider f ≠ 0 :=
  hf.2.resolve_right h0

theorem toPoly_no_cero (f : Pol p) (hf : EsCanonico f) (h0 : f ≠ [0]) : toPoly f ≠ 0 :=
  fun h => h0 ((toPoly_eq_cero_iff f hf).mp h)

/-- Specification of the long-division loop: for a canonical nonzero divisor
`g` and canonical remainder, the loop preserves the division identity and
exits with a remainder of degree less than `deg g`. -/
theorem bucleDivmod_spec (g : Pol p) (hg : EsCanonico g) (hg0 : g ≠ [0]) :
    ∀ (fuel : ℕ) (resto cociente : Pol p), EsCanonico resto →
      (resto = [0] ∨ resto.length + 1 ≤ fuel) →
      toPoly (bucleDivmod g fuel cociente resto).1 * toPoly g +
          toPoly (bucleDivmod g fuel cociente resto).2 =
        toPoly cociente * toPoly g + toPoly resto ∧
      (toPoly (bucleDivmod g fuel cociente resto).2).degree < (toPoly g).degree ∧
      EsCanonico (bucleDivmod g fuel cociente resto).2 := by
  have hgP : toPoly g ≠ 0 := toPoly_no_cero g hg hg0
  have hgbot : (⊥ : WithBot ℕ) < (toPoly g).degree :=
    Ne.bot_lt fun h => hgP (Polynomial.degree_eq_bot.mp h)
  intro fuel
  induction fuel with
  | zero =>
    intro resto cociente hres hlen
    have h0 : resto = [0] := by
      rcases hlen with h | h
      · exact h
      · omega
    subst h0
    refine ⟨rfl, ?_, canon_cero⟩
    show (toPoly ([0] : Pol p)).degree < _
    rw [toPoly_cero, Polynomial.degree_zero]
    exact hgbot
  | succ fuel ih =>
    intro resto cociente hres hlen
    rw [bucleDivmod]
    by_cases hcond : ¬ resto = [0] ∧ grado g ≤ grado resto
    · rw [if_pos hcond]
      obtain ⟨hr0, hgr⟩ := hcond
      have hlg : lider g ≠ 0 := lider_no_cero g hg hg0
      have hlr : lider resto ≠ 0 := lider_no_cero resto hres hr0
      have hrP : toPoly resto ≠ 0 := toPoly_no_cero resto hres hr0
      have hcl : lider resto / lider g ≠ 0 := div_ne_zero hlr hlg
      have hdegg : (toPoly g).degree = ((g.length - 1 : ℕ) : WithBot ℕ) := by
        rw [grado_toPoly g hg, grado, if_neg hg0]
      have hdegr : (toPoly resto).degree = ((resto.length - 1 : ℕ) : WithBot ℕ) := by
        rw [grado_toPoly resto hres, grado, if_neg hr0]
      have hglen : g.length - 1 ≤ resto.length - 1 := by
        rw [grado, if_neg hg0, grado, if_neg hr0] at hgr
        exact_mod_cast hgr
      have hmono : toPoly (monomio (lider resto / lider g) ((resto.length - 1) - (g.length - 1))) =
          Polynomial.C (lider resto / lider g) *
            Polynomial.X ^ ((resto.length - 1) - (g.length - 1)) :=
        toPoly_monomio _ _
      have hpoly' : toPoly (restaPol resto
            (mulPol (monomio (lider resto / lider g) ((resto.length - 1) - (g.length - 1))) g)) =
          toPoly resto - (Polynomial.C (lider resto / lider g) *
            Polynomial.X ^ ((resto.length - 1) - (g.length - 1))) * toPoly g := by
        rw [toPoly_restaPol, toPoly_mulPol, hmono]
      have hdegm : (Polynomial.C (lider resto / lider g) *
            Polynomial.X ^ ((resto.length - 1) - (g.length - 1)) * toPoly g).degree =
          (toPoly resto).degree := by
        rw [Polynomial.degree_mul, Polynomial.degree_C_mul_X_pow _ hcl, hdegg, hdegr]
        have harit : ((resto.length - 1) - (g.length - 1)) + (g.length - 1) =
            resto.length - 1 := by omega
        exact_mod_cast congrArg (Nat.cast : ℕ → WithBot ℕ) harit
      have hlcm : (Polynomial.C (lider resto / lider g) *
            Polynomial.X ^ ((resto.length - 1) - (g.length - 1)) * toPoly g).leadingCoeff =
          (toPoly resto).leadingCoeff := by
        rw [Polynomial.leadingCoeff_mul, Polynomial.leadingCoeff_mul,
          Polynomial.leadingCoeff_C, Polynomial.leadingCoeff_X_pow,
          leadingCoeff_toPoly g hg, leadingCoeff_toPoly resto hres, mul_one,
          div_mul_cancel₀ _ hlg]
      have hdeglt : (toPoly (restaPol resto
            (mulPol (monomio (lider resto / lider g) ((resto.length - 1) - (g.length - 1))) g))).degree <
          (toPoly resto).degree := by
        rw [hpoly']
        exact Polynomial.degree_sub_lt hdegm.symm hrP hlcm.symm
      have hres' : EsCanonico (restaPol resto
          (mulPol (monomio (lider resto / lider g) ((resto.length - 1) - (g.length - 1))) g)) :=
        restaPol_canonico _ _ hres.1
      have hlen' : restaPol resto
            (mulPol (monomio (lider resto / lider g) ((resto.length - 1) - (g.length - 1))) g) = [0] ∨
          (restaPol resto
            (mulPol (monomio (lider resto / lider g) ((resto.length - 1) - (g.length - 1))) g)).length + 1 ≤ fuel := by
        by_cases h0' : restaPol resto
            (mulPol (monomio (lider resto / lider g) ((resto.length - 1) - (g.length - 1))) g) = [0]
        · exact Or.inl h0'
        · right
          have hd' : (toPoly (restaPol resto
              (mulPol (monomio (lider resto / lider g) ((resto.length - 1) - (g.length - 1))) g))).degree =
              (((restaPol resto
                (mulPol (monomio (lider resto / lider g) ((resto.length - 1) - (g.length - 1))) g)).length
                - 1 : ℕ) : WithBot ℕ) := by
            rw [grado_toPoly _ hres', grado, if_neg h0']
          have hlt : (restaPol resto
              (mulPol (monomio (lider resto / lider g) ((resto.length - 1) - (g.length - 1))) g)).length - 1 <
              resto.length - 1 := by
            have := hdeglt
            rw [hd', hdegr] at this
            exact_mod_cast this
          have hpos : 1 ≤ (restaPol resto
              (mulPol (monomio (lider resto / lider g) ((resto.length - 1) - (g.length - 1))) g)).length :=
            List.length_pos.mpr hres'.1
          have hrlen : resto.length + 1 ≤ fuel + 1 := by
            rcases hlen with h | h
            · exact absurd h hr0
            · exact h
          omega
      obtain ⟨hbez, hdeg, hcanon⟩ := ih (restaPol resto
          (mulPol (monomio (lider resto / lider g) ((resto.length - 1) - (g.length - 1))) g))
        (sumaPol cociente (monomio (lider resto / lider g) ((resto.length - 1) - (g.length - 1))))
        hres' hlen'
      refine ⟨?_, hdeg, hcanon⟩
      rw [hbez, toPoly_sumaPol, hmono, hpoly']
      ring
    · rw [if_neg hcond]
      refine ⟨rfl, ?_, hres⟩
      by_cases hr0 : resto = [0]
      · subst hr0
        show (toPoly ([0] : Pol p)).degree < _
        rw [toPoly_cero, Polynomial.degree_zero]
        exact hgbot
      · have hgr : ¬ grado g ≤ grado resto := by
          intro h
          exact hcond ⟨hr0, h⟩
        rw [grado_toPoly g hg, grado_toPoly resto hres]
        exact lt_of_not_le hgr

theorem divmodPol_spec (f g : Pol p) (hg : EsCanonico g) (hg0 : g ≠ [0])
    (hf : EsCanonico f) :
    toPoly (divmodPol f g).1 * toPoly g + toPoly (divmodPol f g).2 = toPoly f ∧
    (toPoly (divmodPol f g).2).degree < (toPoly g).degree ∧
    EsCanonico (divmodPol f g).2 := by
  unfold divmodPol
  have h := bucleDivmod_spec g hg hg0 (f.length + 1) f [0] hf (Or.inr (by omega))
  rwa [toPoly_cero, zero_mul, zero_add] at h

theorem toPoly_uno : toPoly ([1] : Pol p) = 1 := by
  rw [toPoly_const, Polynomial.C_1]

/-- Specification of the polynomial Euclidean loop: Bézout combination, a
canonical nonzero result, and the result divides both loop arguments. -/
theorem bucleEuclidesPol_spec (G H : Polynomial (ZMod p)) :
    ∀ (fuel : ℕ) (gg hh s2 s1 t2 t1 : Pol p),
      EsCanonico gg → EsCanonico hh → gg ≠ [0] →
      (hh = [0] ∨ hh.length ≤ fuel) →
      toPoly s2 * G + toPoly t2 * H = toPoly gg →
      toPoly s1 * G + toPoly t1 * H = toPoly hh →
      toPoly (bucleEuclidesPol fuel gg hh s2 s1 t2 t1).1 * G +
          toPoly (bucleEuclidesPol fuel gg hh s2 s1 t2 t1).2.1 * H =
        toPoly (bucleEuclidesPol fuel gg hh s2 s1 t2 t1).2.2 ∧
      EsCanonico (bucleEuclidesPol fuel gg hh s2 s1 t2 t1).2.2 ∧
      (bucleEuclidesPol fuel gg hh s2 s1 t2 t1).2.2 ≠ [0] ∧
      toPoly (bucleEuclidesPol fuel gg hh s2 s1 t2 t1).2.2 ∣ toPoly gg ∧
      toPoly (bucleEuclidesPol fuel gg hh s2 s1 t2 t1).2.2 ∣ toPoly hh := by
  intro fuel
  induction fuel with
  | zero =>
    intro gg hh s2 s1 t2 t1 hcg hch hg0 hfuel hb2 hb1
    have hh0 : hh = [0] := by
      rcases hfuel with h | h
      · exact h
      · have := List.length_pos.mpr hch.1
        omega
    rw [bucleEuclidesPol]
    refine ⟨hb2, hcg, hg0, dvd_refl _, ?_⟩
    rw [hh0, toPoly_cero]
    exact dvd_zero _
  | succ fuel ih =>
    intro gg hh s2 s1 t2 t1 hcg hch hg0 hfuel hb2 hb1
    rw [bucleEuclidesPol]
    by_cases hh0 : hh = [0]
    · rw [if_pos hh0]
      refine ⟨hb2, hcg, hg0, dvd_refl _, ?_⟩
      rw [hh0, toPoly_cero]
      exact dvd_zero _
    · rw [if_neg hh0]
      obtain ⟨hdiv, hdeg, hcr⟩ := divmodPol_spec gg hh hch hh0 hcg
      have hres : toPoly (divmodPol gg hh).2 =
          toPoly gg - toPoly (divmodPol gg hh).1 * toPoly hh := by
        rw [← hdiv]
        ring
      have hbr : toPoly (restaPol s2 (mulPol (divmodPol gg hh).1 s1)) * G +
          toPoly (restaPol t2 (mulPol (divmodPol gg hh).1 t1)) * H =
          toPoly (divmodPol gg hh).2 := by
        rw [toPoly_restaPol, toPoly_mulPol, toPoly_restaPol, toPoly_mulPol, hres,
          ← hb2, ← hb1]
        ring
      have hfuel' : (divmodPol gg hh).2 = [0] ∨ (divmodPol gg hh).2.length ≤ fuel := by
        by_cases hr0 : (divmodPol gg hh).2 = [0]
        · exact Or.inl hr0
        · right
          have h1 : (toPoly (divmodPol gg hh).2).degree =
              (((divmodPol gg hh).2.length - 1 : ℕ) : WithBot ℕ) := by
            rw [grado_toPoly _ hcr, grado, if_neg hr0]
          have h2 : (toPoly hh).degree = ((hh.length - 1 : ℕ) : WithBot ℕ) := by
            rw [grado_toPoly _ hch, grado, if_neg hh0]
          have hlt : (divmodPol gg hh).2.length - 1 < hh.length - 1 := by
            have := hdeg
            rw [h1, h2] at this
            exact_mod_cast this
          have hpos1 : 1 ≤ (divmodPol gg hh).2.length := List.length_pos.mpr hcr.1
          have hpos2 : hh.length ≤ fuel + 1 := by
            rcases hfuel with h | h
            · exact absurd h hh0
            · exact h
          omega
      obtain ⟨hbez, hcd, hd0, hdvd1, hdvd2⟩ := ih hh (divmodPol gg hh).2 s1
        (restaPol s2 (mulPol (divmodPol gg hh).1 s1)) t1
        (restaPol t2 (mulPol (divmodPol gg hh).1 t1)) hch hcr hh0 hfuel' hb1 hbr
      refine ⟨hbez, hcd, hd0, ?_, hdvd1⟩
      have hgg : toPoly gg = toPoly (divmodPol gg hh).1 * toPoly hh +
          toPoly (divmodPol gg hh).2 := hdiv.symm
      rw [hgg]
      exact dvd_add (Dvd.dvd.mul_left hdvd1 _) hdvd2

theorem euclidesPolSinNormalizar_spec (g h : Pol p) (hgnil : g ≠ []) (hhnil : h ≠ [])
    (hg0 : recortar g ≠ [0]) :
    toPoly (euclidesPolSinNormalizar g h).1 * toPoly g +
        toPoly (euclidesPolSinNormalizar g h).2.1 * toPoly h =
      toPoly (euclidesPolSinNormalizar g h).2.2 ∧
    EsCanonico (euclidesPolSinNormalizar g h).2.2 ∧
    (euclidesPolSinNormalizar g h).2.2 ≠ [0] ∧
    toPoly (euclidesPolSinNormalizar g h).2.2 ∣ toPoly g ∧
    toPoly (euclidesPolSinNormalizar g h).2.2 ∣ toPoly h := by
  unfold euclidesPolSinNormalizar
  by_cases hh0 : recortar h = [0]
  · rw [if_pos hh0]
    refine ⟨?_, recortar_canonico g hgnil, hg0, ?_, ?_⟩
    · rw [toPoly_uno, toPoly_cero, toPoly_recortar]
      ring
    · rw [toPoly_recortar]
    · have hth : toPoly h = 0 := by
        rw [← toPoly_recortar h, hh0, toPoly_cero]
      rw [hth]
      exact dvd_zero _
  · rw [if_neg hh0]
    have hspec := bucleEuclidesPol_spec (toPoly g) (toPoly h) ((recortar h).length + 1)
      (recortar g) (recortar h) [1] [0] [0] [1]
      (recortar_canonico g hgnil) (recortar_canonico h hhnil) hg0
      (Or.inr (by omega))
      (by rw [toPoly_uno, toPoly_cero, toPoly_recortar]; ring)
      (by rw [toPoly_uno, toPoly_cero, toPoly_recortar]; ring)
    obtain ⟨hb, hc, hne, hd1, hd2⟩ := hspec
    exact ⟨hb, hc, hne, by rwa [toPoly_recortar] at hd1, by rwa [toPoly_recortar] at hd2⟩

/-- C4: for every nonzero polynomial `g` and every polynomial `h` over `F_p`
(coefficient lists of the source's `PolinomioZp`, hence nonempty),
`alg_euclides_polinomios` returns `(s, t, d)` with `s·g + t·h = d`, `d` a
common divisor of `g` and `h` of maximal degree among common divisors, and
`d` monic (leading coefficient 1). -/
theorem alg_euclides_polinomios_correcto (g h : Pol p)
    (hgnil : g ≠ []) (hhnil : h ≠ []) (hg0 : recortar g ≠ [0]) :
    ∃ s t d : Pol p, alg_euclides_polinomios g h = some (s, t, d) ∧
      toPoly s * toPoly g + toPoly t * toPoly h = toPoly d ∧
      toPoly d ∣ toPoly g ∧ toPoly d ∣ toPoly h ∧
      (∀ e : Polynomial (ZMod p), e ∣ toPoly g → e ∣ toPoly h →
        e.degree ≤ (toPoly d).degree) ∧
      (toPoly d).Monic ∧ lider d = 1 := by
  obtain ⟨hbez, hcd, hd0, hdg, hdh⟩ := euclidesPolSinNormalizar_spec g h hgnil hhnil hg0
  by_cases hl1 : lider (euclidesPolSinNormalizar g h).2.2 = 1
  · refine ⟨(euclidesPolSinNormalizar g h).1, (euclidesPolSinNormalizar g h).2.1,
      (euclidesPolSinNormalizar g h).2.2, ?_, hbez, hdg, hdh, ?_, ?_, hl1⟩
    · rw [alg_euclides_polinomios, if_pos hl1]
    · intro e heg heh
      have hed : e ∣ toPoly (euclidesPolSinNormalizar g h).2.2 := by
        rw [← hbez]
        exact dvd_add (Dvd.dvd.mul_left heg _) (Dvd.dvd.mul_left heh _)
      exact Polynomial.degree_le_of_dvd hed
        (toPoly_no_cero (euclidesPolSinNormalizar g h).2.2 hcd hd0)
    · rw [Polynomial.Monic, leadingCoeff_toPoly _ hcd, hl1]
  · obtain ⟨k, hk, hzk⟩ := inverso_correcto p (Fact.out) (lider (euclidesPolSinNormalizar g h).2.2)
      (lider_no_cero _ hcd hd0)
    have hk0 : k ≠ 0 := right_ne_zero_of_mul_eq_one hzk
    have hdd : toPoly (mulPol (euclidesPolSinNormalizar g h).2.2 [k]) =
        toPoly (euclidesPolSinNormalizar g h).2.2 * Polynomial.C k := by
      rw [toPoly_mulPol, toPoly_const]
    have hdd0 : toPoly (mulPol (euclidesPolSinNormalizar g h).2.2 [k]) ≠ 0 := by
      rw [hdd]
      exact mul_ne_zero (toPoly_no_cero _ hcd hd0)
        (fun hc => hk0 (by simpa using congrArg (fun q => Polynomial.coeff q 0) hc))
    have hu : IsUnit (Polynomial.C k) := Polynomial.isUnit_C.mpr (isUnit_iff_ne_zero.mpr hk0)
    have hcd' : EsCanonico (mulPol (euclidesPolSinNormalizar g h).2.2 [k]) :=
      mulPol_canonico _ [k] hcd.1
    have hlcd' : (toPoly (mulPol (euclidesPolSinNormalizar g h).2.2 [k])).leadingCoeff = 1 := by
      rw [hdd, Polynomial.leadingCoeff_mul, Polynomial.leadingCoeff_C,
        leadingCoeff_toPoly _ hcd, hzk]
    refine ⟨mulPol (euclidesPolSinNormalizar g h).1 [k],
      mulPol (euclidesPolSinNormalizar g h).2.1 [k],
      mulPol (euclidesPolSinNormalizar g h).2.2 [k], ?_, ?_, ?_, ?_, ?_, ?_, ?_⟩
    · rw [alg_euclides_polinomios, if_neg hl1, hk]
    · rw [toPoly_mulPol, toPoly_mulPol, hdd, toPoly_const, ← hbez]
      ring
    · rw [hdd]
      exact (IsUnit.mul_right_dvd hu).mpr hdg
    · rw [hdd]
      exact (IsUnit.mul_right_dvd hu).mpr hdh
    · intro e heg heh
      have hed0 : e ∣ toPoly (euclidesPolSinNormalizar g h).2.2 := by
        rw [← hbez]
        exact dvd_add (Dvd.dvd.mul_left heg _) (Dvd.dvd.mul_left heh _)
      have hed : e ∣ toPoly (mulPol (euclidesPolSinNormalizar g h).2.2 [k]) := by
        rw [hdd]
        exact Dvd.dvd.mul_right hed0 _
      exact Polynomial.degree_le_of_dvd hed hdd0
    · exact hlcd'
    · rw [← leadingCoeff_toPoly _ hcd', hlcd']

/-- `PolinomioZp.__mod__`: if `deg self < deg q` return `self`, else the
remainder of the division. -/
def modPol (f q : Pol p) : Pol p :=
  if grado f < grado q then f else (divmodPol f q).2

/-- The `ElementoFq.__init__` constructor on a coefficient list: reduce
modulo the irreducible polynomial, then trim through `PolinomioZp.__init__`. -/
def elementoFq (irr f : Pol p) : Pol p :=
  recortar (modPol f irr)

/-- `ElementoFq.cero()`. -/
def ceroFq (irr : Pol p) : Pol p :=
  elementoFq irr [0]

/-- `ElementoFq.uno()`. -/
def unoFq (irr : Pol p) : Pol p :=
  elementoFq irr [1]

/-- `ElementoFq.__mul__`: polynomial product fed back through the
constructor. -/
def mulFq (irr x y : Pol p) : Pol p :=
  elementoFq irr (mulPol x y)

/-- `ElementoFq.inverso()`: extended Euclid against the irreducible
polynomial; `none` models the exceptions. -/
def inversoFq (irr x : Pol p) : Option (Pol p) :=
  if x = ceroFq irr then none
  else
    match alg_euclides_polinomios x irr with
    | none => none
    | some std => some (elementoFq irr std.1)

/-- `ElementoFq._exponenciacion_binaria`: square-and-multiply over the
least-significant-bit-first binary digits of `k`. -/
def expBinariaFq (irr g : Pol p) (k : ℕ) : Pol p :=
  if k = 0 then unoFq irr
  else
    (((bitsLE k).drop 1).foldl
      (fun par b =>
        (mulFq irr par.1 par.1,
          if b then mulFq irr (mulFq irr par.1 par.1) par.2 else par.2))
      (g, if (bitsLE k).headD false then g else unoFq irr)).2

/-- `ElementoFq.__pow__` for the field `F_{p^n}` with irreducible polynomial
`irr`: the `self == 0` case first, then `self == 1 or k == 0`, then the
signed exponent reduced modulo `q - 1`. -/
def potenciaFq (n : ℕ) (irr x : Pol p) (k : ℤ) : Option (Pol p) :=
  if x = ceroFq irr then some x
  else if x = unoFq irr ∨ k = 0 then some (unoFq irr)
  else if k < 0 then
    match inversoFq irr x with
    | none => none
    | some inv => some (expBinariaFq irr inv ((-k) % ((p : ℤ) ^ n - 1)).toNat)
  else some (expBinariaFq irr x (k % ((p : ℤ) ^ n - 1)).toNat)

/-- `EnteroModuloP.__pow__`: nonnegative exponents through `pow(·, m, p)`,
negative exponents through `inverso` (`none` models its exception). -/
def potenciaZp (p : ℕ) (x : ZMod p) (m : ℤ) : Option (ZMod p) :=
  if m < 0 then
    match inverso p x with
    | none => none
    | some inv => some (inv ^ (-m).toNat)
  else some (x ^ m.toNat)

theorem recortar_cero : recortar ([0] : Pol p) = [0] := by
  simp [recortar, List.dropWhile]

theorem ceroFq_eq (irr : Pol p) (hirr : irr ≠ [0]) : ceroFq irr = [0] := by
  have h1 : grado ([0] : Pol p) = ⊥ := by
    rw [grado, if_pos rfl]
  have h2 : grado irr ≠ ⊥ := by
    rw [grado, if_neg hirr]
    exact WithBot.coe_ne_bot
  have hg : grado ([0] : Pol p) < grado irr := by
    rw [h1]
    exact Ne.bot_lt h2
  unfold ceroFq elementoFq modPol
  rw [if_pos hg]
  exact recortar_cero

/-- C10: the two `__pow__` implementations disagree on `0 ** 0`: in the
extension field `F_{p^n}` (`n > 1`, irreducible polynomial nonzero) the
zero element raised to 0 returns the zero element itself, while in `ModP`
`0 ** 0` returns 1, and 0 ≠ 1 modulo the prime `p`. -/
theorem cero_elevado_a_cero (n : ℕ) (irr : Pol p) (hn : 1 < n) (hirr : irr ≠ [0]) :
    potenciaFq n irr (ceroFq irr) 0 = some (ceroFq irr) ∧
    toPoly (ceroFq irr) = 0 ∧
    potenciaZp p 0 0 = some 1 ∧
    (1 : ZMod p) ≠ 0 := by
  refine ⟨?_, ?_, ?_, one_ne_zero⟩
  · rw [potenciaFq, if_pos rfl]
  · rw [ceroFq_eq irr hirr, toPoly_cero]
  · rw [potenciaZp, if_neg (by norm_num)]
    norm_num

end Polinomios

instance : Fact (Nat.Prime 2) := ⟨by norm_num⟩

/-- The hypotheses of `alg_euclides_polinomios_correcto` hold at the
docstring example over `F_2` (`g = X³`, `h = X³ + X² + 1`), and the theorem
applies there. -/
theorem alg_euclides_polinomios_correcto_testigo :
    (([0, 0, 0, 1] : Pol 2) ≠ [] ∧ ([1, 0, 1, 1] : Pol 2) ≠ [] ∧
      recortar ([0, 0, 0, 1] : Pol 2) ≠ [0]) ∧
    ∃ s t d : Pol 2, alg_euclides_polinomios [0, 0, 0, 1] [1, 0, 1, 1] = some (s, t, d) ∧
      toPoly s * toPoly ([0, 0, 0, 1] : Pol 2) + toPoly t * toPoly ([1, 0, 1, 1] : Pol 2) =
        toPoly d ∧
      toPoly d ∣ toPoly ([0, 0, 0, 1] : Pol 2) ∧ toPoly d ∣ toPoly ([1, 0, 1, 1] : Pol 2) ∧
      (∀ e : Polynomial (ZMod 2), e ∣ toPoly ([0, 0, 0, 1] : Pol 2) →
        e ∣ toPoly ([1, 0, 1, 1] : Pol 2) → e.degree ≤ (toPoly d).degree) ∧
      (toPoly d).Monic ∧ lider d = 1 :=
  ⟨⟨by decide, by decide, by decide⟩,
    alg_euclides_polinomios_correcto [0, 0, 0, 1] [1, 0, 1, 1]
      (by decide) (by decide) (by decide)⟩

/-- The hypotheses of `cero_elevado_a_cero` hold at `p = 2`, `n = 2` with the
irreducible polynomial `X² + X + 1`, and the theorem applies there. -/
theorem cero_elevado_a_cero_testigo :
    ((1 : ℕ) < 2 ∧ ([1, 1, 1] : Pol 2) ≠ [0]) ∧
    (potenciaFq 2 [1, 1, 1] (ceroFq ([1, 1, 1] : Pol 2)) 0 =
        some (ceroFq ([1, 1, 1] : Pol 2)) ∧
      toPoly (ceroFq ([1, 1, 1] : Pol 2)) = 0 ∧
      potenciaZp 2 0 0 = some 1 ∧
      (1 : ZMod 2) ≠ 0) :=
  ⟨⟨by decide, by decide⟩, cero_elevado_a_cero 2 [1, 1, 1] (by decide) (by decide)⟩

end Ccepy
